import Mathlib

/-!
# Verification of the R1CS constraint-system solver (r1cs.go)

Shallow embedding of the templated R1CS representation and its solver from
`internal/generators/backend/template/representations/r1cs.go`.  Field
elements (`fr.Element`) are modelled as `ZMod p` for a prime `p`; the limb
structure of an element (an array of 64-bit limbs of its regular, i.e.
non-Montgomery, representation) is modelled by an explicit limb-count
parameter `w` together with limb extraction on `ZMod.val`.  Go panics are
modelled by `Option`/dedicated constructors: a `none` (or `.panicked`)
result means the corresponding Go code aborts with a panic.
-/

set_option maxHeartbeats 1000000

namespace Gnark

/-- A coefficient-scaled reference to one wire.  `coeffValue` mirrors
`Term.CoeffValue()` (the special fast-path values 0, 1, -1, 2; any other
value means the shared coefficient table must be consulted), `coeffID`
mirrors `Term.CoeffID()` (an index into the coefficient table) and `wireID`
mirrors `Term.ConstraintID()` (the index of the referenced wire).
Modelled from the spec: the `r1c.Term` bit-packing itself is not in the
source; only these three accessors are used by `r1cs.go`. -/
structure Term where
  coeffValue : Int
  coeffID : Nat
  wireID : Nat
deriving DecidableEq, Repr

/-- The solving-strategy tag of a constraint (`r1c.SolvingMethod`). -/
inductive SolvingMethod where
  | SingleOutput : SolvingMethod
  | BinaryDec : SolvingMethod
deriving DecidableEq, Repr

/-- One R1CS constraint `L·w * R·w = O·w` (`r1c.R1C`). -/
structure R1C where
  L : List Term
  R : List Term
  O : List Term
  Solver : SolvingMethod
deriving DecidableEq, Repr

/-- A log or debug entry: a format string plus the wire indices whose
resolved values fill its placeholders (`backend.LogEntry`). -/
structure LogEntry where
  Format : String
  ToResolve : List Nat
deriving DecidableEq, Repr

/-- The R1CS constraint system (struct `R1CS` of r1cs.go). -/
structure R1CS (p : ℕ) where
  NbWires : ℕ
  NbPublicWires : ℕ
  NbSecretWires : ℕ
  SecretWires : List String
  PublicWires : List String
  Logs : List LogEntry
  DebugInfo : List LogEntry
  NbConstraints : ℕ
  NbCOConstraints : ℕ
  Constraints : List R1C
  Coefficients : List (ZMod p)

variable {p : ℕ} [Fact p.Prime]

/-- `AddTerm` returns `res + value * term.Coefficient`, with the fast paths
for the special coefficient values 1, -1, 0, 2 and the coefficient-table
path otherwise (r1cs.go `AddTerm`). -/
def AddTerm (cs : R1CS p) (res : ZMod p) (t : Term) (value : ZMod p) : ZMod p :=
  if t.coeffValue = 1 then res + value
  else if t.coeffValue = -1 then res - value
  else if t.coeffValue = 0 then res
  else if t.coeffValue = 2 then res + (value + value)
  else res + cs.Coefficients.getD t.coeffID 0 * value

/-- `mulWireByCoeff` multiplies `res` in place by the term's coefficient,
with the same fast-path structure (r1cs.go `mulWireByCoeff`). -/
def mulWireByCoeff (cs : R1CS p) (res : ZMod p) (t : Term) : ZMod p :=
  if t.coeffValue = 1 then res
  else if t.coeffValue = -1 then -res
  else if t.coeffValue = 0 then 0
  else if t.coeffValue = 2 then res + res
  else res * cs.Coefficients.getD t.coeffID 0

/-- Evaluation of one linear combination: the fold of `AddTerm` over its
terms, reading each referenced wire from the value vector (the per-side
loops of `instantiateR1C`). -/
def evalLC (cs : R1CS p) (terms : List Term) (wv : List (ZMod p)) : ZMod p :=
  terms.foldl (fun acc t => AddTerm cs acc t (wv.getD t.wireID 0)) 0

/-- `instantiateR1C` computes the `(a, b, c)` triple of a constraint, i.e.
the values of its `L`, `R`, `O` sides over the value vector. -/
def instantiateR1C (cs : R1CS p) (r : R1C) (wv : List (ZMod p)) :
    ZMod p × ZMod p × ZMod p :=
  (evalLC cs r.L wv, evalLC cs r.R wv, evalLC cs r.O wv)

/-- The `processTerm` closure of `solveR1C`: an instantiated wire's term is
accumulated into the side total; an uninstantiated one is recorded as the
unknown (`loc`, `termToCompute`), and finding a second one is the Go panic
"found more than one wire to instantiate", modelled as `none`. -/
def processTerm (cs : R1CS p) (inst : List Bool) (wv : List (ZMod p)) (locValue : ℕ)
    (st : ZMod p × ℕ × Term) (t : Term) : Option (ZMod p × ℕ × Term) :=
  if inst.getD t.wireID false then
    some (AddTerm cs st.1 t (wv.getD t.wireID 0), st.2.1, st.2.2)
  else if st.2.1 ≠ 0 then none
  else some (st.1, locValue, t)

/-- Scan one side of a single-output constraint with `processTerm`,
threading the side accumulator together with the shared unknown-location
state. -/
def scanSide (cs : R1CS p) (inst : List Bool) (wv : List (ZMod p)) (locValue : ℕ)
    (terms : List Term) (st : ZMod p × ℕ × Term) : Option (ZMod p × ℕ × Term) :=
  terms.foldlM (processTerm cs inst wv locValue) st

/-- Scan the three sides `L`, `R`, `O` of a single-output constraint in
order (loc values 1, 2, 3), returning the three side totals, the location
of the unknown wire (0 when every wire was instantiated) and the unknown
term.  The initial `termToCompute` is the zero value of `Term`. -/
def scanAll (cs : R1CS p) (inst : List Bool) (wv : List (ZMod p)) (r : R1C) :
    Option (ZMod p × ZMod p × ZMod p × ℕ × Term) :=
  (scanSide cs inst wv 1 r.L (0, 0, ⟨0, 0, 0⟩)).bind fun s1 =>
    (scanSide cs inst wv 2 r.R (0, s1.2.1, s1.2.2)).bind fun s2 =>
      (scanSide cs inst wv 3 r.O (0, s2.2.1, s2.2.2)).map fun s3 =>
        (s1.1, s2.1, s3.1, s3.2.1, s3.2.2)

/-- One 64-bit limb of the regular (non-Montgomery) representation of a
field element value `n`: `n[i]` in the Go source.  Reading a limb past the
element's limb count `w` is an out-of-range panic, modelled as `none`. -/
def limbGet (w n i : ℕ) : Option ℕ :=
  if i < w then some ((n >>> (64 * i)) % 2 ^ 64) else none

/-- The inner `j` loop of the binary decomposition: write bits
`64*i .. 64*i+63` of limb `li` into the bit slice, stopping at `nbBits`. -/
def setBits (li i nbBits : ℕ) (sl : List ℕ) : List ℕ :=
  (List.range 64).foldl
    (fun s j => if 64 * i + j < nbBits then s.set (64 * i + j) ((li >>> j) % 2) else s) sl

/-- The binary-decomposition bit-extraction loop of `solveR1C`: for every
`i` with `i*64 < nbBits` (exactly the `i < (nbBits+63)/64`) read limb `i`
of `n` and scatter its bits into the slice.  A limb index at or past the
element's limb count `w` panics (`none`). -/
def bitSliceBuild (w n nbBits : ℕ) : Option (List ℕ) :=
  (List.range ((nbBits + 63) / 64)).foldlM
    (fun sl i => (limbGet w n i).map fun li => setBits li i nbBits sl)
    (List.replicate nbBits 0)

/-- The `quickLog` iteration: shift right until zero, counting the shifts.
A fuel argument (`fuel := b` at the call site, always sufficient since the
bit length of `b` never exceeds `b`) makes the recursion structural. -/
def quickLogLoop (fuel b res : ℕ) : ℕ :=
  match fuel with
  | 0 => res
  | fuel + 1 => if b = 0 then res else quickLogLoop fuel (b / 2) (res + 1)

/-- `quickLog` of r1cs.go: the number of right shifts needed to zero `b`,
minus one — the bit position encoded by a power-of-two coefficient
(`-1` for `b = 0`). -/
def quickLog (b : ℕ) : ℤ :=
  (quickLogLoop b b 0 : ℤ) - 1

/-- The final loop of the binary-decomposition strategy: for every term of
`L`, look its coefficient up in the table, recover the bit position with
`quickLog`, and set the term's wire to the extracted bit, marking it
instantiated.  An out-of-range coefficient index or bit position is a Go
panic (`none`). -/
def affectBits (cs : R1CS p) (sl : List ℕ) :
    List Term → List (ZMod p) → List Bool → Option (List (ZMod p) × List Bool)
  | [], wv, inst => some (wv, inst)
  | t :: ts, wv, inst =>
    match cs.Coefficients.get? t.coeffID with
    | none => none
    | some coef =>
      let ib := quickLog coef.val
      if ib < 0 then none
      else
        match sl.get? ib.toNat with
        | none => none
        | some bit =>
          affectBits cs sl ts (wv.set t.wireID (bit : ZMod p)) (inst.set t.wireID true)

/-- `solveR1C`: compute the missing wire of a constraint.  For a
`SingleOutput` constraint the unique uninstantiated wire is isolated
algebraically; for a `BinaryDec` constraint the wires of `L` receive the
bits of the value of `O`.  `w` is the limb count of the field element
type.  Returns the updated value vector and instantiation bitmap, or
`none` for a Go panic. -/
def solveR1C (w : ℕ) (cs : R1CS p) (r : R1C) (inst : List Bool) (wv : List (ZMod p)) :
    Option (List (ZMod p) × List Bool) :=
  match r.Solver with
  | .SingleOutput =>
    match scanAll cs inst wv r with
    | none => none
    | some (a, b, c, loc, tc) =>
      if loc = 0 then some (wv, inst)
      else
        let cID := tc.wireID
        let wv' : List (ZMod p) :=
          if loc = 1 then
            (if b = 0 then wv else wv.set cID (mulWireByCoeff cs (c / b - a) tc))
          else if loc = 2 then
            (if a = 0 then wv else wv.set cID (mulWireByCoeff cs (c / a - b) tc))
          else if loc = 3 then wv.set cID (mulWireByCoeff cs (a * b - c) tc)
          else wv
        some (wv', inst.set cID true)
  | .BinaryDec =>
    let n : ℕ := (evalLC cs r.O wv).val
    let nbBits := r.L.length
    match bitSliceBuild w n nbBits with
    | none => none
    | some sl => affectBits cs sl r.L wv inst

/-- The reserved name of the constant-one public wire.
Modelled from the spec: `backend.OneWire` is not part of the source; only
the reserved-name comparison in the input-instantiation loop uses it. -/
def OneWire : String := "ONE_WIRE"

/-- The closed set of recoverable error kinds `Solve` can return:
the invalid-input-size error, `backend.ErrInputNotSet` wrapped with the
offending input name, and `backend.ErrUnsatisfiedConstraint` wrapped with
the resolved debug string. -/
inductive SolveError where
  | invalidInputSize : SolveError
  | inputNotSet (name : String) : SolveError
  | unsatisfiedConstraint (msg : String) : SolveError
deriving DecidableEq, Repr

/-- The mutable state of one `Solve` call: the `a`, `b`, `c` output
vectors, the wire-value vector and the instantiation bitmap. -/
structure SolveState (p : ℕ) where
  a : List (ZMod p)
  b : List (ZMod p)
  c : List (ZMod p)
  wv : List (ZMod p)
  inst : List Bool
deriving DecidableEq

/-- The outcome of a `Solve` call: success with the final buffers, a
returned error with the buffers as they stand at the return, or a Go
panic. -/
inductive SolveResult (p : ℕ) where
  | ok (a b c wireValues : List (ZMod p)) : SolveResult p
  | err (e : SolveError) (a b c wireValues : List (ZMod p)) : SolveResult p
  | panicked : SolveResult p
deriving DecidableEq

/-- The `instantiateInputs` closure of `Solve`: walk the input names in
order, writing wire `offset + i` for the `i`-th name.  The reserved
constant-one wire name gets value 1 without a map lookup; any other name is
looked up in the assignment and its absence aborts with the name (the
`InputNotSet` path), returning the partially written buffers. -/
def instantiateInputsAux (assignment : List (String × ZMod p)) :
    ℕ → List String → List (ZMod p) → List Bool →
    Except (String × List (ZMod p) × List Bool) (List (ZMod p) × List Bool)
  | _, [], wv, inst => .ok (wv, inst)
  | idx, name :: rest, wv, inst =>
    if name = OneWire then
      instantiateInputsAux assignment (idx + 1) rest (wv.set idx 1) (inst.set idx true)
    else
      match assignment.lookup name with
      | some v => instantiateInputsAux assignment (idx + 1) rest (wv.set idx v) (inst.set idx true)
      | none => .error (name, wv, inst)

/-- The input phase of `Solve`: allocate the instantiation bitmap, then
instantiate the secret inputs (skipped when there are none) at their
partition offset, then the public inputs at theirs.  Offsets are the Go
`int` casts of the unsigned count differences (the counts of a well-formed
system satisfy `NbSecretWires + NbPublicWires ≤ NbWires`). -/
def inputPhase (cs : R1CS p) (assignment : List (String × ZMod p)) (wv : List (ZMod p)) :
    Except (String × List (ZMod p) × List Bool) (List (ZMod p) × List Bool) :=
  match
    (if cs.NbSecretWires ≠ 0 then
      instantiateInputsAux assignment (cs.NbWires - cs.NbPublicWires - cs.NbSecretWires)
        cs.SecretWires wv (List.replicate cs.NbWires false)
    else .ok (wv, List.replicate cs.NbWires false)) with
  | .error e => .error e
  | .ok s =>
    instantiateInputsAux assignment (cs.NbWires - cs.NbPublicWires) cs.PublicWires s.1 s.2

/-- Positional `%s` substitution, modelling the `fmt.Sprintf` call of
`logValue` on its string arguments. -/
def sprintfAux : List Char → List String → String
  | [], _ => ""
  | '%' :: 's' :: rest, arg :: args => arg ++ sprintfAux rest args
  | ch :: rest, args => String.singleton ch ++ sprintfAux rest args

/-- Format a log entry's format string with its resolved arguments. -/
def sprintf (f : String) (args : List String) : String :=
  sprintfAux f.toList args

/-- The decimal string of a field element's regular value
(`fr.Element.String()`). -/
def elemStr (x : ZMod p) : String :=
  toString x.val

/-- Resolve the wire references of a log entry to value strings, in order.
Referencing an uninstantiated wire is the Go panic "wire values was not
instantiated", modelled as `none`. -/
def resolveArgs (wv : List (ZMod p)) (inst : List Bool) : List ℕ → Option (List String)
  | [] => some []
  | wid :: rest =>
    if inst.getD wid false then
      (resolveArgs wv inst rest).map fun l => elemStr (wv.getD wid 0) :: l
    else none

/-- `logValue`: resolve a log or debug entry into its diagnostic string. -/
def logValue (entry : LogEntry) (wv : List (ZMod p)) (inst : List Bool) : Option String :=
  (resolveArgs wv inst entry.ToResolve).map (sprintf entry.Format)

/-- `printLogs`: resolve every accumulated log entry, in declared order
(the strings are printed to stdout; a failed resolution is a panic). -/
def resolveLogs (wv : List (ZMod p)) (inst : List Bool) : List LogEntry → Option (List String)
  | [] => some []
  | e :: rest =>
    (logValue e wv inst).bind fun s => (resolveLogs wv inst rest).map fun l => s :: l

/-- The buffer-size precondition of `Solve`: `a`, `b`, `c` must have
exactly `NbConstraints` entries and the value vector `NbWires`. -/
def sizesOk (cs : R1CS p) (a b c wv : List (ZMod p)) : Bool :=
  a.length == cs.NbConstraints && b.length == cs.NbConstraints &&
    c.length == cs.NbConstraints && wv.length == cs.NbWires

/-- The computational phase of `Solve`: for each constraint of the
computational prefix, solve it with `solveR1C`, record its `(a, b, c)`
triple, and check `a*b = c`; a failed check is the Go panic
"error solving r1c", and an index past the constraint list is an
out-of-range panic (both `none`). -/
def compLoop (w : ℕ) (cs : R1CS p) : ℕ → ℕ → SolveState p → Option (SolveState p)
  | _, 0, st => some st
  | i, fuel + 1, st =>
    match cs.Constraints.get? i with
    | none => none
    | some r =>
      match solveR1C w cs r st.inst st.wv with
      | none => none
      | some s =>
        let t := instantiateR1C cs r s.1
        let st' : SolveState p :=
          ⟨st.a.set i t.1, st.b.set i t.2.1, st.c.set i t.2.2, s.1, s.2⟩
        if t.1 * t.2.1 = t.2.2 then compLoop w cs (i + 1) fuel st' else none

/-- The outcome of the assertion phase: all checks passed, a failed check
with its resolved debug string, or a panic while resolving it. -/
inductive AssertOut (p : ℕ) where
  | ok (st : SolveState p) : AssertOut p
  | fail (msg : String) (st : SolveState p) : AssertOut p
  | panicked : AssertOut p
deriving DecidableEq

/-- The assertion phase of `Solve`: for each remaining constraint record
its `(a, b, c)` triple and check `a*b = c`; on violation resolve the
debug-info entry of index `i - NbCOConstraints` into the failure
diagnostic. -/
def assertLoop (cs : R1CS p) (nbCO : ℕ) : ℕ → ℕ → SolveState p → AssertOut p
  | _, 0, st => .ok st
  | i, fuel + 1, st =>
    match cs.Constraints.get? i with
    | none => .panicked
    | some r =>
      let t := instantiateR1C cs r st.wv
      let st' : SolveState p :=
        ⟨st.a.set i t.1, st.b.set i t.2.1, st.c.set i t.2.2, st.wv, st.inst⟩
      if t.1 * t.2.1 = t.2.2 then assertLoop cs nbCO (i + 1) fuel st'
      else
        match cs.DebugInfo.get? (i - nbCO) with
        | none => .panicked
        | some entry =>
          match logValue entry st.wv st.inst with
          | none => .panicked
          | some msg => .fail msg st'

/-- `Solve`: check the buffer sizes, instantiate the inputs, run the
computational phase then the assertion phase, and finally resolve the
accumulated logs (the deferred `printLogs`, which runs on the success and
on the unsatisfied-constraint return paths and whose own failure is a
panic). -/
def Solve (w : ℕ) (cs : R1CS p) (assignment : List (String × ZMod p))
    (a b c wireValues : List (ZMod p)) : SolveResult p :=
  if sizesOk cs a b c wireValues then
    match inputPhase cs assignment wireValues with
    | .error e => .err (.inputNotSet e.1) a b c e.2.1
    | .ok s =>
      match compLoop w cs 0 cs.NbCOConstraints ⟨a, b, c, s.1, s.2⟩ with
      | none => .panicked
      | some st1 =>
        match assertLoop cs cs.NbCOConstraints cs.NbCOConstraints
            (cs.Constraints.length - cs.NbCOConstraints) st1 with
        | .panicked => .panicked
        | .fail msg st2 =>
          match resolveLogs st2.wv st2.inst cs.Logs with
          | none => .panicked
          | some _ => .err (.unsatisfiedConstraint msg) st2.a st2.b st2.c st2.wv
        | .ok st2 =>
          match resolveLogs st2.wv st2.inst cs.Logs with
          | none => .panicked
          | some _ => .ok st2.a st2.b st2.c st2.wv
  else .err .invalidInputSize a b c wireValues

/-! ## Codec

`WriteTo`/`ReadFrom` delegate to an external self-describing binary codec
(a CBOR library) that is not part of this repository.  Modelled from the
spec: the codec contract of §4.7 — serialize every field of the
Constraint System to a stream, reconstruct an identical object, report the
number of stream units written and read.  The stream is a list of
unbounded atoms; sequences are length-prefixed. -/

/-- Encode a natural number as one stream atom. -/
def encNat (n : ℕ) : List ℕ := [n]

/-- Decode a natural number, returning the remaining stream. -/
def decNat : List ℕ → Option (ℕ × List ℕ)
  | [] => none
  | x :: r => some (x, r)

/-- Encode an integer as magnitude atoms for each sign. -/
def encInt (i : ℤ) : List ℕ := [i.toNat, (-i).toNat]

/-- Decode an integer. -/
def decInt : List ℕ → Option (ℤ × List ℕ)
  | a :: b :: r => some (if b = 0 then (a : ℤ) else -(b : ℤ), r)
  | _ => none

/-- Encode a sequence with a length prefix. -/
def encList (f : α → List ℕ) (xs : List α) : List ℕ :=
  xs.length :: (xs.map f).flatten

/-- Decode exactly `n` consecutive elements. -/
def decListN (g : List ℕ → Option (α × List ℕ)) : ℕ → List ℕ → Option (List α × List ℕ)
  | 0, s => some ([], s)
  | n + 1, s => (g s).bind fun x => (decListN g n x.2).map fun y => (x.1 :: y.1, y.2)

/-- Decode a length-prefixed sequence. -/
def decList (g : List ℕ → Option (α × List ℕ)) (s : List ℕ) : Option (List α × List ℕ) :=
  (decNat s).bind fun x => decListN g x.1 x.2

/-- Encode a character as its code point. -/
def encChar (c : Char) : List ℕ := [c.toNat]

/-- Decode a character. -/
def decChar : List ℕ → Option (Char × List ℕ)
  | [] => none
  | x :: r => some (Char.ofNat x, r)

/-- Encode a string as the length-prefixed sequence of its characters. -/
def encString (s : String) : List ℕ := encList encChar s.data

/-- Decode a string. -/
def decString (s : List ℕ) : Option (String × List ℕ) :=
  (decList decChar s).map fun x => (String.mk x.1, x.2)

/-- Encode a log entry: format string then wire-index list. -/
def encLogEntry (e : LogEntry) : List ℕ :=
  encString e.Format ++ encList encNat e.ToResolve

/-- Decode a log entry. -/
def decLogEntry (s : List ℕ) : Option (LogEntry × List ℕ) :=
  (decString s).bind fun x => (decList decNat x.2).map fun y => (⟨x.1, y.1⟩, y.2)

/-- Encode a term: coefficient special value, coefficient index, wire index. -/
def encTerm (t : Term) : List ℕ :=
  encInt t.coeffValue ++ encNat t.coeffID ++ encNat t.wireID

/-- Decode a term. -/
def decTerm (s : List ℕ) : Option (Term × List ℕ) :=
  (decInt s).bind fun x => (decNat x.2).bind fun y => (decNat y.2).map fun z =>
    (⟨x.1, y.1, z.1⟩, z.2)

/-- Encode a solving-method tag. -/
def encSM : SolvingMethod → List ℕ
  | .SingleOutput => [0]
  | .BinaryDec => [1]

/-- Decode a solving-method tag. -/
def decSM : List ℕ → Option (SolvingMethod × List ℕ)
  | 0 :: r => some (.SingleOutput, r)
  | 1 :: r => some (.BinaryDec, r)
  | _ => none

/-- Encode a constraint: the three term lists then the solver tag. -/
def encR1C (r : R1C) : List ℕ :=
  encList encTerm r.L ++ encList encTerm r.R ++ encList encTerm r.O ++ encSM r.Solver

/-- Decode a constraint. -/
def decR1C (s : List ℕ) : Option (R1C × List ℕ) :=
  (decList decTerm s).bind fun l => (decList decTerm l.2).bind fun r =>
    (decList decTerm r.2).bind fun o => (decSM o.2).map fun m =>
      (⟨l.1, r.1, o.1, m.1⟩, m.2)

/-- Encode a field element by its regular value. -/
def encElem (x : ZMod p) : List ℕ := [x.val]

/-- Decode a field element. -/
def decElem (s : List ℕ) : Option (ZMod p × List ℕ) :=
  match s with
  | [] => none
  | v :: r => some ((v : ZMod p), r)

/-- Encode every field of a Constraint System, in declaration order. -/
def encodeR1CS (cs : R1CS p) : List ℕ :=
  encNat cs.NbWires ++ encNat cs.NbPublicWires ++ encNat cs.NbSecretWires ++
    encList encString cs.SecretWires ++ encList encString cs.PublicWires ++
    encList encLogEntry cs.Logs ++ encList encLogEntry cs.DebugInfo ++
    encNat cs.NbConstraints ++ encNat cs.NbCOConstraints ++
    encList encR1C cs.Constraints ++ encList encElem cs.Coefficients

/-- Decode a Constraint System, returning it with the remaining stream. -/
def decodeR1CS (s : List ℕ) : Option (R1CS p × List ℕ) :=
  (decNat s).bind fun nw => (decNat nw.2).bind fun npw => (decNat npw.2).bind fun nsw =>
    (decList decString nsw.2).bind fun sw => (decList decString sw.2).bind fun pw =>
      (decList decLogEntry pw.2).bind fun lg => (decList decLogEntry lg.2).bind fun di =>
        (decNat di.2).bind fun nc => (decNat nc.2).bind fun nco =>
          (decList decR1C nco.2).bind fun ct => (decList decElem ct.2).map fun cf =>
            (⟨nw.1, npw.1, nsw.1, sw.1, pw.1, lg.1, di.1, nc.1, nco.1, ct.1, cf.1⟩, cf.2)

/-- `WriteTo`: the encoded stream together with the reported number of
stream units written. -/
def WriteTo (cs : R1CS p) : List ℕ × ℕ :=
  (encodeR1CS cs, (encodeR1CS cs).length)

/-- `ReadFrom`: decode a Constraint System from the stream, reporting the
number of stream units read. -/
def ReadFrom (s : List ℕ) : Option (R1CS p × ℕ) :=
  (decodeR1CS (p := p) s).map fun x => (x.1, s.length - x.2.length)

/-! ## Codec round-trip lemmas -/

theorem decNat_encNat (n : ℕ) (rest : List ℕ) : decNat (encNat n ++ rest) = some (n, rest) := rfl

theorem decInt_encInt (i : ℤ) (rest : List ℕ) : decInt (encInt i ++ rest) = some (i, rest) := by
  cases i with
  | ofNat n => simp [encInt, decInt]
  | negSucc n =>
    have h2 : (-Int.negSucc n).toNat = n + 1 := by simp [Int.neg_negSucc]
    have h1 : (Int.negSucc n).toNat = 0 := rfl
    simp [encInt, decInt, h1, h2, Int.negSucc_eq]

theorem decChar_encChar (c : Char) (rest : List ℕ) :
    decChar (encChar c ++ rest) = some (c, rest) := by
  simp [encChar, decChar, Char.ofNat_toNat]

theorem decListN_encs {g : List ℕ → Option (α × List ℕ)} {f : α → List ℕ}
    (hg : ∀ a rest, g (f a ++ rest) = some (a, rest)) :
    ∀ (xs : List α) (rest : List ℕ),
      decListN g xs.length ((xs.map f).flatten ++ rest) = some (xs, rest) := by
  intro xs
  induction xs with
  | nil => intro rest; simp [decListN]
  | cons x xs ih =>
    intro rest
    simp only [List.map_cons, List.flatten_cons, List.length_cons, List.append_assoc, decListN]
    rw [hg x ((xs.map f).flatten ++ rest)]
    simp [ih rest]

theorem decList_encList {g : List ℕ → Option (α × List ℕ)} {f : α → List ℕ}
    (hg : ∀ a rest, g (f a ++ rest) = some (a, rest)) (xs : List α) (rest : List ℕ) :
    decList g (encList f xs ++ rest) = some (xs, rest) := by
  simp only [encList, decList, List.cons_append, decNat, Option.bind_some]
  exact decListN_encs hg xs rest

theorem decString_encString (s : String) (rest : List ℕ) :
    decString (encString s ++ rest) = some (s, rest) := by
  simp [decString, encString, decList_encList decChar_encChar]

theorem decLogEntry_encLogEntry (e : LogEntry) (rest : List ℕ) :
    decLogEntry (encLogEntry e ++ rest) = some (e, rest) := by
  simp [decLogEntry, encLogEntry, decString_encString,
    decList_encList decNat_encNat]

theorem decTerm_encTerm (t : Term) (rest : List ℕ) :
    decTerm (encTerm t ++ rest) = some (t, rest) := by
  simp [decTerm, encTerm, decInt_encInt, decNat_encNat]

theorem decSM_encSM (m : SolvingMethod) (rest : List ℕ) :
    decSM (encSM m ++ rest) = some (m, rest) := by
  cases m <;> simp [encSM, decSM]

theorem decR1C_encR1C (r : R1C) (rest : List ℕ) :
    decR1C (encR1C r ++ rest) = some (r, rest) := by
  simp [decR1C, encR1C, decList_encList decTerm_encTerm, decSM_encSM]

theorem decElem_encElem (x : ZMod p) (rest : List ℕ) :
    decElem (encElem x ++ rest) = some (x, rest) := by
  simp [decElem, encElem, ZMod.natCast_rightInverse x]

theorem decodeR1CS_encodeR1CS (cs : R1CS p) (rest : List ℕ) :
    decodeR1CS (encodeR1CS cs ++ rest) = some (cs, rest) := by
  simp [decodeR1CS, encodeR1CS, encNat, decList_encList decString_encString,
    decList_encList decLogEntry_encLogEntry, decList_encList decR1C_encR1C,
    decList_encList decElem_encElem, decNat]

/-- C5: decoding the stream produced by encoding any well-formed Constraint
System — zero-constraint and zero-wire systems included — yields a
Constraint System equal to it in every field, and the unit count reported
by the decoder equals the count reported by the encoder. -/
theorem writeTo_readFrom_roundtrip (p : ℕ) [Fact p.Prime] (cs : R1CS p) :
    ReadFrom (p := p) (WriteTo cs).1 = some (cs, (WriteTo cs).2) := by
  have h := decodeR1CS_encodeR1CS cs []
  rw [List.append_nil] at h
  simp [ReadFrom, WriteTo, h]

instance : Fact (Nat.Prime 7) := ⟨by norm_num⟩

instance : Fact (Nat.Prime 17) := ⟨by norm_num⟩

/-- The zero-wire, zero-constraint system, the edge case of the codec
round trip. -/
def csZero7 : R1CS 7 := ⟨0, 0, 0, [], [], [], [], 0, 0, [], []⟩

/-- Witness for C5 at the zero-wire, zero-constraint system. -/
theorem writeTo_readFrom_roundtrip_witness :
    ReadFrom (p := 7) (WriteTo csZero7).1 = some (csZero7, (WriteTo csZero7).2) :=
  writeTo_readFrom_roundtrip 7 csZero7

/-! ## Single-output solving: characterization and concrete runs -/

/-- Characterization of `solveR1C` on a single-output constraint whose
unique unknown lies in `L` (scan location 1): when the `R` total `b` is
zero the value vector is untouched; otherwise the unknown wire receives
`mulWireByCoeff (c/b - a)`; in both cases the wire is marked
instantiated. -/
theorem solveR1C_singleOutput_loc1 (w : ℕ) (cs : R1CS p) (r : R1C) (inst : List Bool)
    (wv : List (ZMod p)) (a b c : ZMod p) (tc : Term)
    (hs : r.Solver = .SingleOutput)
    (hscan : scanAll cs inst wv r = some (a, b, c, 1, tc)) :
    solveR1C w cs r inst wv =
      some (if b = 0 then wv else wv.set tc.wireID (mulWireByCoeff cs (c / b - a) tc),
        inst.set tc.wireID true) := by
  unfold solveR1C
  rw [hs, hscan]
  simp

/-- A three-wire system with an empty coefficient table, for single-output
constraint runs whose terms use only fast-path coefficients. -/
def csSingle7 : R1CS 7 := ⟨3, 0, 0, [], [], [], [], 1, 1, [], []⟩

/-- Constraint `1*w0 * 1*w1 = 1*w2` tagged single-output, `w0` unknown. -/
def rZeroR : R1C := ⟨[⟨1, 0, 0⟩], [⟨1, 0, 1⟩], [⟨1, 0, 2⟩], .SingleOutput⟩

/-- Constraint `2*w0 * 1*w1 = 1*w2` tagged single-output, `w0` unknown with
coefficient 2. -/
def rCoefTwo : R1C := ⟨[⟨2, 0, 0⟩], [⟨1, 0, 1⟩], [⟨1, 0, 2⟩], .SingleOutput⟩

/-- C2 counterexample: on `L = [1*w0]` unknown, `R = [1*w1] = 0`,
`O = [1*w2] = 5`, after `solveR1C` returns the instantiation bitmap entry
of `w0` is `true`, not left `false`: the assignment to the bitmap sits
after the `switch`, outside the `b = 0` guard. -/
theorem singleOutput_zeroR_cex :
    (solveR1C (p := 7) 4 csSingle7 rZeroR [false, true, true] [0, 0, 5]).map
      (fun res => res.2.getD 0 false) = some true := by decide

/-- C2 (amended): for a single-output constraint whose unique unknown lies
in `L` and whose `R` total is zero, the unknown wire's value is not
computed (the value vector is returned unchanged), but its instantiation
bitmap entry is nonetheless set to `true`. -/
theorem singleOutput_unknownL_zeroR (w : ℕ) (cs : R1CS p) (r : R1C) (inst : List Bool)
    (wv : List (ZMod p)) (a c : ZMod p) (tc : Term)
    (hs : r.Solver = .SingleOutput)
    (hscan : scanAll cs inst wv r = some (a, 0, c, 1, tc)) :
    solveR1C w cs r inst wv = some (wv, inst.set tc.wireID true) := by
  rw [solveR1C_singleOutput_loc1 w cs r inst wv a 0 c tc hs hscan]
  simp

/-- Witness for the amended C2 at the concrete zero-`R` run. -/
theorem singleOutput_unknownL_zeroR_witness :
    solveR1C (p := 7) 4 csSingle7 rZeroR [false, true, true] [0, 0, 5] =
      some ([0, 0, 5], [false, true, true].set 0 true) :=
  singleOutput_unknownL_zeroR 4 csSingle7 rZeroR [false, true, true] [0, 0, 5] 0 5
    ⟨1, 0, 0⟩ rfl (by decide)

/-- C3 counterexample: with the unknown term's coefficient 2 and side
totals `a = 0`, `b = 1`, `c = 2`, the stored wire value is
`mulWireByCoeff (c/b - a)` — the isolated quantity multiplied by the
coefficient — which differs from the claimed `(c/b - a)` divided by the
coefficient. -/
theorem singleOutput_unknownL_divides_cex :
    (solveR1C (p := 7) 4 csSingle7 rCoefTwo [false, true, true] [0, 1, 2]).map
        (fun res => res.1.getD 0 0) =
      some (mulWireByCoeff csSingle7 ((2 : ZMod 7) / 1 - 0) ⟨2, 0, 0⟩) ∧
    mulWireByCoeff csSingle7 ((2 : ZMod 7) / 1 - 0) ⟨2, 0, 0⟩ ≠
      ((2 : ZMod 7) / 1 - 0) / 2 := by
  constructor
  · rw [solveR1C_singleOutput_loc1 4 csSingle7 rCoefTwo [false, true, true] [0, 1, 2]
      0 1 2 ⟨2, 0, 0⟩ rfl (by decide)]
    norm_num
  · have h1 : (2 : ZMod 7) / 1 - 0 = 2 := by rw [div_one, sub_zero]
    rw [h1]
    have h2 : (2 : ZMod 7) / 2 = 1 := div_self (by decide)
    rw [h2]
    decide

/-- C3 (amended): for a single-output constraint whose unique unknown lies
in `L` with nonzero `R` total `b`, the stored wire value is `(c/b) - a`
multiplied by the unknown term's own coefficient (`mulWireByCoeff`), and
the wire is marked instantiated. -/
theorem singleOutput_unknownL_nonzeroR (w : ℕ) (cs : R1CS p) (r : R1C) (inst : List Bool)
    (wv : List (ZMod p)) (a b c : ZMod p) (tc : Term)
    (hs : r.Solver = .SingleOutput)
    (hscan : scanAll cs inst wv r = some (a, b, c, 1, tc)) (hb : b ≠ 0) :
    solveR1C w cs r inst wv =
      some (wv.set tc.wireID (mulWireByCoeff cs (c / b - a) tc), inst.set tc.wireID true) := by
  rw [solveR1C_singleOutput_loc1 w cs r inst wv a b c tc hs hscan]
  simp [hb]

/-- Witness for the amended C3 at the concrete coefficient-2 run. -/
theorem singleOutput_unknownL_nonzeroR_witness :
    solveR1C (p := 7) 4 csSingle7 rCoefTwo [false, true, true] [0, 1, 2] =
      some ([0, 1, 2].set 0 (mulWireByCoeff csSingle7 ((2 : ZMod 7) / 1 - 0) ⟨2, 0, 0⟩),
        [false, true, true].set 0 true) :=
  singleOutput_unknownL_nonzeroR 4 csSingle7 rCoefTwo [false, true, true] [0, 1, 2]
    0 1 2 ⟨2, 0, 0⟩ rfl (by decide) (by decide)

/-! ## Binary decomposition: concrete run (C4) -/

/-- Five wires, coefficient table `[1, 2, 4, 8]`. -/
def csBin17 : R1CS 17 := ⟨5, 0, 0, [], [], [], [], 1, 1, [], [1, 2, 4, 8]⟩

/-- Binary-decomposition constraint: `L` references wires 0..3 with
coefficients 1, 2, 4, 8 (coefficient ids 0..3), `O = [1*w4]`. -/
def rBin : R1C :=
  ⟨[⟨1, 0, 0⟩, ⟨2, 1, 1⟩, ⟨-3, 2, 2⟩, ⟨-3, 3, 3⟩], [], [⟨1, 0, 4⟩], .BinaryDec⟩

/-- The same constraint with the `L` terms listed in a different order. -/
def rBinPerm : R1C :=
  ⟨[⟨-3, 3, 3⟩, ⟨-3, 2, 2⟩, ⟨1, 0, 0⟩, ⟨2, 1, 1⟩], [], [⟨1, 0, 4⟩], .BinaryDec⟩

theorem get?_set_ne' (l : List α) (m n : ℕ) (a : α) (h : m ≠ n) :
    (l.set m a).get? n = l.get? n := by
  rw [List.get?_eq_getElem?, List.get?_eq_getElem?, List.getElem?_set_ne h]

theorem get?_set_self' (l : List α) (n : ℕ) (a : α) (h : n < l.length) :
    (l.set n a).get? n = some a := by
  rw [List.get?_eq_getElem?, List.getElem?_set_eq_of_lt a h]

/-- The bit-extraction fold succeeds exactly when every outer index reads a
limb inside the element's limb array. -/
theorem bitSlice_fold_isSome (w n nbBits : ℕ) :
    ∀ (L : List ℕ) (sl : List ℕ),
      (L.foldlM (fun sl i => (limbGet w n i).map fun li => setBits li i nbBits sl)
          sl).isSome ↔ ∀ i ∈ L, i < w := by
  intro L
  induction L with
  | nil => intro sl; simp
  | cons i L ih =>
    intro sl
    by_cases hi : i < w
    · have hl : limbGet w n i = some (n >>> (64 * i) % 2 ^ 64) := by simp [limbGet, hi]
      rw [List.foldlM_cons, hl, Option.map_some']
      rw [show ∀ (x : List ℕ) (g : List ℕ → Option (List ℕ)), ((some x) >>= g) = g x from
        fun x g => rfl]
      rw [ih]
      simp [List.forall_mem_cons, hi]
    · have hl : limbGet w n i = none := by simp [limbGet, hi]
      have hnone : List.foldlM
          (fun sl i => (limbGet w n i).map fun li => setBits li i nbBits sl) sl (i :: L) =
          none := by
        rw [List.foldlM_cons, hl]
        rfl
      rw [hnone]
      simp only [Option.isSome_none, Bool.false_eq_true, false_iff]
      intro h
      exact hi (h i (List.mem_cons_self i L))

/-- `bitSliceBuild` succeeds iff the decomposition width fits in the
element's `w` limbs of 64 bits. -/
theorem bitSliceBuild_isSome (w n nbBits : ℕ) :
    (bitSliceBuild w n nbBits).isSome ↔ nbBits ≤ 64 * w := by
  rw [bitSliceBuild, bitSlice_fold_isSome]
  constructor
  · intro h
    by_contra hlt
    have hw : w ∈ List.range ((nbBits + 63) / 64) := by
      rw [List.mem_range]
      omega
    exact absurd (h w hw) (lt_irrefl w)
  · intro h i hi
    rw [List.mem_range] at hi
    omega

/-- `quickLogLoop` on a zero input returns its accumulator unchanged. -/
theorem quickLogLoop_zeroVal (fuel res : ℕ) : quickLogLoop fuel 0 res = res := by
  cases fuel with
  | zero => rfl
  | succ f => simp [quickLogLoop]

/-- `quickLogLoop` on a power of two counts its exponent plus one shifts. -/
theorem quickLogLoop_two_pow :
    ∀ (k fuel res : ℕ), 2 ^ k < 2 ^ fuel → quickLogLoop fuel (2 ^ k) res = res + (k + 1) := by
  intro k
  induction k with
  | zero =>
    intro fuel res h
    cases fuel with
    | zero => simp at h
    | succ f =>
      show quickLogLoop (f + 1) 1 res = res + 1
      simp [quickLogLoop, quickLogLoop_zeroVal]
  | succ k ih =>
    intro fuel res h
    cases fuel with
    | zero =>
      rw [pow_zero] at h
      have hp : 0 < 2 ^ (k + 1) := pow_pos (by norm_num) _
      omega
    | succ f =>
      have hne : 2 ^ (k + 1) ≠ 0 := (pow_pos (by norm_num : (0 : ℕ) < 2) _).ne'
      have hdiv : 2 ^ (k + 1) / 2 = 2 ^ k := by
        rw [pow_succ]
        exact Nat.mul_div_cancel _ (by norm_num)
      have hstep : k + 1 < f + 1 := (Nat.pow_lt_pow_iff_right (by norm_num : 1 < 2)).mp h
      have hlt : 2 ^ k < 2 ^ f := pow_lt_pow_right₀ (by norm_num) (by omega)
      rw [show quickLogLoop (f + 1) (2 ^ (k + 1)) res =
        if 2 ^ (k + 1) = 0 then res else quickLogLoop f (2 ^ (k + 1) / 2) (res + 1) from rfl]
      rw [if_neg hne, hdiv, ih f (res + 1) hlt]
      omega

/-- `quickLog` recovers the exponent of a power-of-two coefficient: the
bit length of the coefficient minus one. -/
theorem quickLog_two_pow (k : ℕ) : quickLog (2 ^ k) = (k : ℤ) := by
  unfold quickLog
  rw [quickLogLoop_two_pow k (2 ^ k) 0
    (pow_lt_pow_right₀ (by norm_num) (Nat.lt_two_pow k))]
  push_cast
  ring

/-- The inner bit-scatter fold preserves the slice length. -/
theorem setfold_length (li i nbBits : ℕ) :
    ∀ (n : ℕ) (sl : List ℕ),
      ((List.range n).foldl
        (fun s j => if 64 * i + j < nbBits then s.set (64 * i + j) ((li >>> j) % 2) else s)
        sl).length = sl.length := by
  intro n
  induction n with
  | zero => intro sl; rfl
  | succ n ih =>
    intro sl
    rw [List.range_succ, List.foldl_append, List.foldl_cons, List.foldl_nil]
    by_cases h : 64 * i + n < nbBits
    · rw [if_pos h]
      simp [ih sl]
    · rw [if_neg h]
      exact ih sl

/-- Entrywise description of the inner bit-scatter fold: position `m` holds
bit `m - 64*i` of the limb when the fold reaches it, and is untouched
otherwise. -/
theorem setfold_get? (li i nbBits : ℕ) :
    ∀ (n : ℕ) (sl : List ℕ) (m : ℕ), m < sl.length →
      ((List.range n).foldl
        (fun s j => if 64 * i + j < nbBits then s.set (64 * i + j) ((li >>> j) % 2) else s)
        sl).get? m =
        (if 64 * i ≤ m ∧ m < 64 * i + n ∧ m < nbBits then some ((li >>> (m - 64 * i)) % 2)
         else sl.get? m) := by
  intro n
  induction n with
  | zero =>
    intro sl m hm
    rw [if_neg (by omega)]
    rfl
  | succ n ih =>
    intro sl m hm
    rw [List.range_succ, List.foldl_append, List.foldl_cons, List.foldl_nil]
    by_cases hcnd : 64 * i + n < nbBits
    · rw [if_pos hcnd]
      by_cases hm' : m = 64 * i + n
      · subst hm'
        rw [get?_set_self' _ _ _ (by rw [setfold_length]; exact hm)]
        rw [if_pos (by omega)]
        have harith : 64 * i + n - 64 * i = n := by omega
        rw [harith]
      · rw [get?_set_ne' _ _ _ _ (by omega), ih sl m hm]
        split_ifs <;> first | rfl | omega
    · rw [if_neg hcnd, ih sl m hm]
      split_ifs <;> first | rfl | omega

/-- `setBits` preserves the slice length. -/
theorem setBits_length (li i nbBits : ℕ) (sl : List ℕ) :
    (setBits li i nbBits sl).length = sl.length :=
  setfold_length li i nbBits 64 sl

/-- Entrywise description of `setBits`. -/
theorem setBits_get? (li i nbBits : ℕ) (sl : List ℕ) (m : ℕ) (hm : m < sl.length) :
    (setBits li i nbBits sl).get? m =
      (if 64 * i ≤ m ∧ m < 64 * i + 64 ∧ m < nbBits then some ((li >>> (m - 64 * i)) % 2)
       else sl.get? m) :=
  setfold_get? li i nbBits 64 sl m hm

/-- The outer limb fold preserves the slice length. -/
theorem outerFold_length (n nbBits : ℕ) :
    ∀ (K : ℕ) (sl : List ℕ),
      ((List.range K).foldl
        (fun sl i => setBits ((n >>> (64 * i)) % 2 ^ 64) i nbBits sl) sl).length =
      sl.length := by
  intro K
  induction K with
  | zero => intro sl; rfl
  | succ K ih =>
    intro sl
    rw [List.range_succ, List.foldl_append, List.foldl_cons, List.foldl_nil,
      setBits_length]
    exact ih sl

/-- Entrywise description of the outer limb fold: position `m` holds bit
`m % 64` of limb `m / 64` once the fold has passed it. -/
theorem outerFold_get? (n nbBits : ℕ) :
    ∀ (K : ℕ) (sl : List ℕ) (m : ℕ), m < sl.length →
      ((List.range K).foldl
        (fun sl i => setBits ((n >>> (64 * i)) % 2 ^ 64) i nbBits sl) sl).get? m =
        (if m < 64 * K ∧ m < nbBits then
          some ((((n >>> (64 * (m / 64))) % 2 ^ 64) >>> (m % 64)) % 2)
         else sl.get? m) := by
  intro K
  induction K with
  | zero =>
    intro sl m hm
    rw [if_neg (by omega)]
    rfl
  | succ K ih =>
    intro sl m hm
    rw [List.range_succ, List.foldl_append, List.foldl_cons, List.foldl_nil]
    rw [setBits_get? _ _ _ _ m (by rw [outerFold_length]; exact hm)]
    by_cases hin : 64 * K ≤ m ∧ m < 64 * K + 64 ∧ m < nbBits
    · rw [if_pos hin, if_pos (by omega)]
      have hq : m / 64 = K := by omega
      have hr : m % 64 = m - 64 * K := by omega
      rw [hq, hr]
    · rw [if_neg hin, ih sl m hm]
      split_ifs <;> first | rfl | omega

/-- Reading bit `m % 64` of the 64-bit limb `m / 64` of `n` is reading bit
`m` of `n`. -/
theorem limb_bit_eq (n m : ℕ) :
    (((n >>> (64 * (m / 64))) % 2 ^ 64) >>> (m % 64)) % 2 = (n >>> m) % 2 := by
  have key : ∀ (a r : ℕ), r < 64 → ((a % 2 ^ 64) >>> r) % 2 = (a >>> r) % 2 := by
    intro a r hr
    rw [Nat.shiftRight_eq_div_pow, Nat.shiftRight_eq_div_pow]
    conv_rhs => rw [← Nat.div_add_mod a (2 ^ 64)]
    have hpow : 2 ^ 64 = 2 ^ r * 2 ^ (64 - r) := by
      rw [← pow_add]
      congr 1
      omega
    rw [hpow, Nat.mul_assoc, Nat.mul_add_div (pow_pos (by norm_num) r)]
    have hsub : 64 - r = (63 - r) + 1 := by omega
    have h2 : 2 ^ (64 - r) * (a / (2 ^ r * 2 ^ (64 - r))) =
        2 * (2 ^ (63 - r) * (a / (2 ^ r * 2 ^ (64 - r)))) := by
      rw [hsub, pow_succ]
      ring
    rw [h2, Nat.mul_add_mod]
  rw [key _ _ (Nat.mod_lt _ (by norm_num))]
  rw [← Nat.shiftRight_add]
  rw [Nat.div_add_mod m 64]

/-- When every limb read of the extraction loop is in range, the `Option`
fold agrees with the plain fold of `setBits` over the limb values. -/
theorem bitSlice_fold_eq (w n nbBits : ℕ) :
    ∀ (L : List ℕ) (sl : List ℕ), (∀ i ∈ L, i < w) →
      L.foldlM (fun sl i => (limbGet w n i).map fun li => setBits li i nbBits sl) sl =
        some (L.foldl (fun sl i => setBits ((n >>> (64 * i)) % 2 ^ 64) i nbBits sl) sl) := by
  intro L
  induction L with
  | nil => intro sl _; rfl
  | cons i L ih =>
    intro sl hall
    have hi : i < w := hall i (List.mem_cons_self i L)
    have hl : limbGet w n i = some ((n >>> (64 * i)) % 2 ^ 64) := by simp [limbGet, hi]
    rw [List.foldlM_cons, hl, Option.map_some']
    rw [show ∀ (x : List ℕ) (g : List ℕ → Option (List ℕ)), ((some x) >>= g) = g x from
      fun x g => rfl]
    rw [List.foldl_cons]
    exact ih _ fun j hj => hall j (List.mem_cons_of_mem i hj)

/-- A successful bit extraction yields a slice of length `nbBits` whose
entry `m` is bit `m` of the decomposed value. -/
theorem bitSliceBuild_spec (w n nbBits : ℕ) (sl : List ℕ)
    (h : bitSliceBuild w n nbBits = some sl) :
    sl.length = nbBits ∧ ∀ m, m < nbBits → sl.get? m = some ((n >>> m) % 2) := by
  have hsome : nbBits ≤ 64 * w := (bitSliceBuild_isSome w n nbBits).mp (by rw [h]; rfl)
  have hall : ∀ i ∈ List.range ((nbBits + 63) / 64), i < w := by
    intro i hi
    rw [List.mem_range] at hi
    omega
  rw [bitSliceBuild, bitSlice_fold_eq w n nbBits _ _ hall] at h
  injection h with h
  subst h
  constructor
  · rw [outerFold_length]
    simp
  · intro m hm
    rw [outerFold_get? n nbBits _ _ m (by simp [hm])]
    rw [if_pos ⟨by omega, hm⟩, limb_bit_eq]

/-- The bit-affecting loop leaves wires it does not reference alone. -/
theorem affectBits_preserve (cs : R1CS p) (sl : List ℕ) :
    ∀ (ts : List Term) (wv : List (ZMod p)) (inst : List Bool)
      (wv' : List (ZMod p)) (inst' : List Bool),
      affectBits cs sl ts wv inst = some (wv', inst') →
      ∀ k, k ∉ ts.map Term.wireID →
        wv'.get? k = wv.get? k ∧ inst'.get? k = inst.get? k := by
  intro ts
  induction ts with
  | nil =>
    intro wv inst wv' inst' h k hk
    injection h with h1
    cases h1
    exact ⟨rfl, rfl⟩
  | cons u us ih =>
    intro wv inst wv' inst' h k hk
    unfold affectBits at h
    cases hc : cs.Coefficients.get? u.coeffID with
    | none => simp only [hc] at h; exact Option.noConfusion h
    | some coef =>
      simp only [hc] at h
      by_cases hneg : quickLog coef.val < 0
      · rw [if_pos hneg] at h
        exact Option.noConfusion h
      · rw [if_neg hneg] at h
        cases hb : sl.get? (quickLog coef.val).toNat with
        | none => simp only [hb] at h; exact Option.noConfusion h
        | some bit =>
          simp only [hb] at h
          have hk1 : k ∉ us.map Term.wireID := by
            intro hmem
            exact hk (by simp [hmem])
          have hku : k ≠ u.wireID := by
            intro hke
            exact hk (by simp [hke])
          have hres := ih _ _ wv' inst' h k hk1
          rw [hres.1, hres.2, get?_set_ne' _ _ _ _ (Ne.symm hku),
            get?_set_ne' _ _ _ _ (Ne.symm hku)]
          exact ⟨rfl, rfl⟩

/-- On a successful bit-affecting run over terms with pairwise distinct
wires, every term's wire ends holding the slice entry selected by
`quickLog` of that term's own table coefficient, and is marked
instantiated — regardless of the term's position in the list. -/
theorem affectBits_sets (cs : R1CS p) (sl : List ℕ) :
    ∀ (ts : List Term) (wv : List (ZMod p)) (inst : List Bool)
      (wv' : List (ZMod p)) (inst' : List Bool),
      affectBits cs sl ts wv inst = some (wv', inst') →
      (ts.map Term.wireID).Nodup →
      ∀ t ∈ ts, t.wireID < wv.length → t.wireID < inst.length →
        ∃ coef bit, cs.Coefficients.get? t.coeffID = some coef ∧
          sl.get? (quickLog coef.val).toNat = some bit ∧
          wv'.get? t.wireID = some ((bit : ZMod p)) ∧
          inst'.get? t.wireID = some true := by
  intro ts
  induction ts with
  | nil =>
    intro wv inst wv' inst' h hnd t ht
    simp at ht
  | cons u us ih =>
    intro wv inst wv' inst' h hnd t ht hw hi
    unfold affectBits at h
    cases hc : cs.Coefficients.get? u.coeffID with
    | none => simp only [hc] at h; exact Option.noConfusion h
    | some coef =>
      simp only [hc] at h
      by_cases hneg : quickLog coef.val < 0
      · rw [if_pos hneg] at h
        exact Option.noConfusion h
      · rw [if_neg hneg] at h
        cases hb : sl.get? (quickLog coef.val).toNat with
        | none => simp only [hb] at h; exact Option.noConfusion h
        | some bit =>
          simp only [hb] at h
          have hnd' : u.wireID ∉ us.map Term.wireID ∧ (us.map Term.wireID).Nodup := by
            rw [List.map_cons, List.nodup_cons] at hnd
            exact hnd
          rcases List.mem_cons.mp ht with hteq | htus
          · subst hteq
            have hpres := affectBits_preserve cs sl us _ _ wv' inst' h t.wireID hnd'.1
            refine ⟨coef, bit, hc, hb, ?_, ?_⟩
            · rw [hpres.1, get?_set_self' _ _ _ hw]
            · rw [hpres.2, get?_set_self' _ _ _ hi]
          · exact ih _ _ wv' inst' h hnd'.2 t htus (by simpa using hw) (by simpa using hi)

/-- C4: for every binary-decomposition constraint, each `L` term's wire
receives the bit of the decomposed `O` value whose position is determined
solely by that term's own coefficient — `quickLog` of its table entry,
the bit length of the coefficient minus one (the first conjunct states
this for the power-of-two coefficients the builder produces) —
independent of the term's position in the sequence, and the wire is
marked instantiated.  In particular, with `eval(O) = 13` and four `L`
terms of coefficients 1, 2, 4, 8 on distinct wires 0..3, solving sets
those wires to 1, 0, 1, 1 and marks them instantiated, and the permuted
term order gives the same wire values. -/
theorem binaryDec_bits_by_coefficient :
    (∀ k : ℕ, quickLog (2 ^ k) = (k : ℤ)) ∧
    (∀ (p : ℕ) (_ : Fact p.Prime) (w : ℕ) (cs : R1CS p) (r : R1C)
        (inst : List Bool) (wv wv' : List (ZMod p)) (inst' : List Bool),
      r.Solver = .BinaryDec →
      solveR1C w cs r inst wv = some (wv', inst') →
      (r.L.map Term.wireID).Nodup →
      ∀ t ∈ r.L, t.wireID < wv.length → t.wireID < inst.length →
        ∃ coef, cs.Coefficients.get? t.coeffID = some coef ∧
          wv'.get? t.wireID =
            some ((((evalLC cs r.O wv).val >>> (quickLog coef.val).toNat) % 2 : ℕ) : ZMod p) ∧
          inst'.get? t.wireID = some true) ∧
    solveR1C (p := 17) 4 csBin17 rBin [false, false, false, false, true] [0, 0, 0, 0, 13] =
      some ([1, 0, 1, 1, 13], [true, true, true, true, true]) ∧
    solveR1C (p := 17) 4 csBin17 rBinPerm [false, false, false, false, true] [0, 0, 0, 0, 13] =
      some ([1, 0, 1, 1, 13], [true, true, true, true, true]) := by
  refine ⟨quickLog_two_pow, ?_, by decide, by decide⟩
  intro p hp w cs r inst wv wv' inst' hs hsol hnd t ht hw hi
  unfold solveR1C at hsol
  simp only [hs] at hsol
  cases hbs : bitSliceBuild w (evalLC cs r.O wv).val r.L.length with
  | none => simp only [hbs] at hsol; exact Option.noConfusion hsol
  | some sl =>
    simp only [hbs] at hsol
    obtain ⟨hlen, hcontent⟩ := bitSliceBuild_spec w _ _ sl hbs
    obtain ⟨coef, bit, hc, hb, hwv, hinst⟩ :=
      affectBits_sets cs sl r.L wv inst wv' inst' hsol hnd t ht hw hi
    have hidx : (quickLog coef.val).toNat < r.L.length := by
      have hxl := (List.get?_eq_some.mp hb).1
      omega
    have hbit : bit = ((evalLC cs r.O wv).val >>> (quickLog coef.val).toNat) % 2 := by
      have h2 := hcontent _ hidx
      rw [hb] at h2
      exact Option.some.inj h2
    refine ⟨coef, hc, ?_, hinst⟩
    rw [hwv, hbit]

/-- Witness for C4: the bit-length identity at coefficient 8, and the
universal bit assignment applied to wire 0 (coefficient 1) of the
concrete 13-decomposition run. -/
theorem binaryDec_bits_by_coefficient_witness :
    quickLog (2 ^ 3) = (3 : ℤ) ∧
    (∃ coef, csBin17.Coefficients.get? 0 = some coef ∧
      ([1, 0, 1, 1, 13] : List (ZMod 17)).get? 0 =
        some ((((evalLC csBin17 rBin.O [0, 0, 0, 0, 13]).val >>>
          (quickLog coef.val).toNat) % 2 : ℕ) : ZMod 17) ∧
      ([true, true, true, true, true] : List Bool).get? 0 = some true) :=
  ⟨binaryDec_bits_by_coefficient.1 3,
    binaryDec_bits_by_coefficient.2.1 17 ⟨by norm_num⟩ 4 csBin17 rBin
      [false, false, false, false, true] [0, 0, 0, 0, 13] [1, 0, 1, 1, 13]
      [true, true, true, true, true] rfl (by decide) (by decide) ⟨1, 0, 0⟩
      (by decide) (by decide) (by decide)⟩

/-! ## Binary decomposition: limb-bound safety (C10) -/

/-- C10: the bit-extraction step of a binary-decomposition constraint is
panic-free exactly when the `L` term count does not exceed 64 bits per
limb; a constraint whose `L` has more terms than the element has bits
makes `solveR1C` read past the limb array and abort. -/
theorem binaryDec_limb_bound :
    (∀ (w n nbBits : ℕ), (bitSliceBuild w n nbBits).isSome ↔ nbBits ≤ 64 * w) ∧
    (∀ (p : ℕ) (_ : Fact p.Prime) (w : ℕ) (cs : R1CS p) (r : R1C)
        (inst : List Bool) (wv : List (ZMod p)),
      r.Solver = .BinaryDec → 64 * w < r.L.length →
      solveR1C w cs r inst wv = none) := by
  refine ⟨bitSliceBuild_isSome, ?_⟩
  intro p hp w cs r inst wv hs hlen
  have hnone : bitSliceBuild w (evalLC cs r.O wv).val r.L.length = none := by
    have h := (bitSliceBuild_isSome w (evalLC cs r.O wv).val r.L.length).not
    rw [Option.not_isSome_iff_eq_none] at h
    exact h.mpr (by omega)
  unfold solveR1C
  rw [hs]
  simp [hnone]

/-- A one-limb binary-decomposition run whose 65-term `L` exceeds the
element's 64 bits: a made-up 65-wire constraint. -/
def rWide : R1C :=
  ⟨List.map (fun i => ⟨1, 0, i⟩) (List.range 65), [], [⟨1, 0, 65⟩], .BinaryDec⟩

/-- Witness for C10: concrete success boundary at 64 bits and a concrete
abort with 65 `L` terms on a one-limb element. -/
theorem binaryDec_limb_bound_witness :
    ((bitSliceBuild 1 13 64).isSome ↔ 64 ≤ 64 * 1) ∧
    solveR1C (p := 7) 1 csZero7 rWide (List.replicate 66 false)
      (List.replicate 66 (0 : ZMod 7)) = none :=
  ⟨binaryDec_limb_bound.1 1 13 64,
    binaryDec_limb_bound.2 7 ⟨by norm_num⟩ 1 csZero7 rWide
      (List.replicate 66 false) (List.replicate 66 (0 : ZMod 7)) rfl (by decide)⟩

/-! ## Fatal invariant violations (C8) -/

/-- Unfolding of one `scanSide` step. -/
theorem scanSide_cons (cs : R1CS p) (inst : List Bool) (wv : List (ZMod p)) (lv : ℕ)
    (t : Term) (ts : List Term) (st : ZMod p × ℕ × Term) :
    scanSide cs inst wv lv (t :: ts) st =
      (processTerm cs inst wv lv st t).bind fun st' => scanSide cs inst wv lv ts st' := by
  rfl

/-- Reduction of `processTerm` on an instantiated wire. -/
theorem processTerm_inst (cs : R1CS p) (inst : List Bool) (wv : List (ZMod p)) (lv : ℕ)
    (v : ZMod p) (loc : ℕ) (tc : Term) (t : Term)
    (h : inst.getD t.wireID false = true) :
    processTerm cs inst wv lv (v, loc, tc) t =
      some (AddTerm cs v t (wv.getD t.wireID 0), loc, tc) := by
  unfold processTerm
  rw [if_pos h]

/-- Reduction of `processTerm` on an uninstantiated wire with an unknown
already recorded: the "more than one wire" panic. -/
theorem processTerm_second (cs : R1CS p) (inst : List Bool) (wv : List (ZMod p)) (lv : ℕ)
    (v : ZMod p) (loc : ℕ) (tc : Term) (t : Term)
    (h : inst.getD t.wireID false = false) (hloc : loc ≠ 0) :
    processTerm cs inst wv lv (v, loc, tc) t = none := by
  unfold processTerm
  rw [if_neg (by rw [h]; exact Bool.false_ne_true), if_pos hloc]

/-- Reduction of `processTerm` on the first uninstantiated wire. -/
theorem processTerm_first (cs : R1CS p) (inst : List Bool) (wv : List (ZMod p)) (lv : ℕ)
    (v : ZMod p) (tc : Term) (t : Term)
    (h : inst.getD t.wireID false = false) :
    processTerm cs inst wv lv (v, 0, tc) t = some (v, lv, t) := by
  unfold processTerm
  rw [if_neg (by rw [h]; exact Bool.false_ne_true), if_neg (by simp)]

/-- A scan that already holds an unknown (`loc ≠ 0`) panics as soon as it
meets any further uninstantiated term. -/
theorem scanSide_none_of_unset (cs : R1CS p) (inst : List Bool) (wv : List (ZMod p)) (lv : ℕ) :
    ∀ (ts : List Term) (v : ZMod p) (loc : ℕ) (tc : Term), loc ≠ 0 →
      0 < ts.countP (fun t => !(inst.getD t.wireID false)) →
      scanSide cs inst wv lv ts (v, loc, tc) = none := by
  intro ts
  induction ts with
  | nil => intro v loc tc hloc hcnt; simp at hcnt
  | cons t ts ih =>
    intro v loc tc hloc hcnt
    rw [List.countP_cons] at hcnt
    rw [scanSide_cons]
    by_cases hinst : inst.getD t.wireID false = true
    · rw [processTerm_inst cs inst wv lv v loc tc t hinst, Option.some_bind]
      refine ih _ loc tc hloc ?_
      rw [hinst] at hcnt
      have h0 : (if (!true : Bool) = true then 1 else 0) = 0 := rfl
      rw [h0] at hcnt
      omega
    · rw [Bool.not_eq_true] at hinst
      rw [processTerm_second cs inst wv lv v loc tc t hinst hloc]
      rfl

/-- A scan starting with no recorded unknown panics when its side holds at
least two uninstantiated terms. -/
theorem scanSide_none_of_two (cs : R1CS p) (inst : List Bool) (wv : List (ZMod p)) (lv : ℕ) :
    ∀ (ts : List Term) (v : ZMod p) (tc : Term), lv ≠ 0 →
      2 ≤ ts.countP (fun t => !(inst.getD t.wireID false)) →
      scanSide cs inst wv lv ts (v, 0, tc) = none := by
  intro ts
  induction ts with
  | nil => intro v tc hlv hcnt; simp at hcnt
  | cons t ts ih =>
    intro v tc hlv hcnt
    rw [List.countP_cons] at hcnt
    rw [scanSide_cons]
    by_cases hinst : inst.getD t.wireID false = true
    · rw [processTerm_inst cs inst wv lv v 0 tc t hinst, Option.some_bind]
      refine ih _ tc hlv ?_
      rw [hinst] at hcnt
      have h0 : (if (!true : Bool) = true then 1 else 0) = 0 := rfl
      rw [h0] at hcnt
      omega
    · rw [Bool.not_eq_true] at hinst
      rw [processTerm_first cs inst wv lv v tc t hinst, Option.some_bind]
      refine scanSide_none_of_unset cs inst wv lv ts v lv t hlv ?_
      rw [hinst] at hcnt
      have h1 : (if (!false : Bool) = true then 1 else 0) = 1 := rfl
      rw [h1] at hcnt
      omega

/-- A successful scan ends with no recorded unknown exactly when it started
with none and its side holds no uninstantiated term. -/
theorem scanSide_some_loc (cs : R1CS p) (inst : List Bool) (wv : List (ZMod p)) (lv : ℕ) :
    ∀ (ts : List Term) (v : ZMod p) (loc : ℕ) (tc : Term) (out : ZMod p × ℕ × Term),
      lv ≠ 0 → scanSide cs inst wv lv ts (v, loc, tc) = some out →
      (out.2.1 = 0 ↔ (loc = 0 ∧ ts.countP (fun t => !(inst.getD t.wireID false)) = 0)) := by
  intro ts
  induction ts with
  | nil =>
    intro v loc tc out hlv hscan
    have h : (some (v, loc, tc) : Option (ZMod p × ℕ × Term)) = some out := hscan
    cases h
    simp
  | cons t ts ih =>
    intro v loc tc out hlv hscan
    rw [scanSide_cons] at hscan
    by_cases hinst : inst.getD t.wireID false = true
    · rw [processTerm_inst cs inst wv lv v loc tc t hinst, Option.some_bind] at hscan
      rw [ih _ loc tc out hlv hscan, List.countP_cons, hinst]
      have h0 : (if (!true : Bool) = true then 1 else 0) = 0 := rfl
      rw [h0]
      simp
    · rw [Bool.not_eq_true] at hinst
      by_cases hloc : loc = 0
      · subst hloc
        rw [processTerm_first cs inst wv lv v tc t hinst, Option.some_bind] at hscan
        rw [ih _ lv t out hlv hscan, List.countP_cons, hinst]
        have h1 : (if (!false : Bool) = true then 1 else 0) = 1 := rfl
        rw [h1]
        constructor
        · intro h
          exact absurd h.1 hlv
        · intro h
          omega
      · rw [processTerm_second cs inst wv lv v loc tc t hinst hloc] at hscan
        cases hscan

/-- With at least two uninstantiated term occurrences across `L`, `R`, `O`,
the three-side scan panics. -/
theorem scanAll_none_of_two (cs : R1CS p) (inst : List Bool) (wv : List (ZMod p)) (r : R1C)
    (h2 : 2 ≤ (r.L ++ r.R ++ r.O).countP (fun t => !(inst.getD t.wireID false))) :
    scanAll cs inst wv r = none := by
  rw [List.countP_append, List.countP_append] at h2
  unfold scanAll
  cases hL : scanSide cs inst wv 1 r.L (0, 0, ⟨0, 0, 0⟩) with
  | none => rfl
  | some s1 =>
    obtain ⟨a1, loc1, tc1⟩ := s1
    rw [Option.some_bind]
    have hL1 : loc1 = 0 ↔ r.L.countP (fun t => !(inst.getD t.wireID false)) = 0 := by
      simpa using scanSide_some_loc cs inst wv 1 r.L 0 0 ⟨0, 0, 0⟩ (a1, loc1, tc1)
        (by norm_num) hL
    have hcL : r.L.countP (fun t => !(inst.getD t.wireID false)) ≤ 1 := by
      by_contra hc
      push_neg at hc
      rw [scanSide_none_of_two cs inst wv 1 r.L 0 ⟨0, 0, 0⟩ (by norm_num) (by omega)] at hL
      exact Option.noConfusion hL
    cases hR : scanSide cs inst wv 2 r.R (0, loc1, tc1) with
    | none => rfl
    | some s2 =>
      obtain ⟨b2, loc2, tc2⟩ := s2
      rw [Option.some_bind]
      have hL2 : loc2 = 0 ↔
          (loc1 = 0 ∧ r.R.countP (fun t => !(inst.getD t.wireID false)) = 0) :=
        scanSide_some_loc cs inst wv 2 r.R 0 loc1 tc1 (b2, loc2, tc2) (by norm_num) hR
      have hR0 : ¬(loc1 ≠ 0 ∧ 0 < r.R.countP (fun t => !(inst.getD t.wireID false))) := by
        rintro ⟨hx, hy⟩
        rw [scanSide_none_of_unset cs inst wv 2 r.R 0 loc1 tc1 hx hy] at hR
        exact Option.noConfusion hR
      have hR2 : ¬(loc1 = 0 ∧ 2 ≤ r.R.countP (fun t => !(inst.getD t.wireID false))) := by
        rintro ⟨hx, hy⟩
        rw [hx] at hR
        rw [scanSide_none_of_two cs inst wv 2 r.R 0 tc1 (by norm_num) hy] at hR
        exact Option.noConfusion hR
      suffices hO : scanSide cs inst wv 3 r.O (0, loc2, tc2) = none by rw [hO]; rfl
      by_cases hz : loc2 = 0
      · have h1 := (hL2.mp hz).1
        have h2' := (hL2.mp hz).2
        have h3 := hL1.mp h1
        rw [hz]
        exact scanSide_none_of_two cs inst wv 3 r.O 0 tc2 (by norm_num) (by omega)
      · have hcO : 0 < r.O.countP (fun t => !(inst.getD t.wireID false)) := by
          by_contra hc
          push_neg at hc
          by_cases hl1 : loc1 = 0
          · have h3 := hL1.mp hl1
            exact hR2 ⟨hl1, by omega⟩
          · have h4 : r.L.countP (fun t => !(inst.getD t.wireID false)) ≠ 0 := fun h =>
              hl1 (hL1.mpr h)
            exact hR0 ⟨hl1, by omega⟩
        exact scanSide_none_of_unset cs inst wv 3 r.O 0 loc2 tc2 hz hcO

/-- C8: the three internal invariant violations abort via a panic.
First: a single-output constraint with two or more uninstantiated term
occurrences makes `solveR1C` panic.  Second and third: a computational
constraint failing the `a*b = c` check after solving makes `compLoop`
panic and `Solve` surface it as a panic, not as a returned error.  Fourth
and fifth: resolving a log entry that references an uninstantiated wire
panics, and `Solve` surfaces a failing final log resolution as a panic. -/
theorem fatal_invariants_panic :
    (∀ (p : ℕ) (_ : Fact p.Prime) (w : ℕ) (cs : R1CS p) (r : R1C)
        (inst : List Bool) (wv : List (ZMod p)),
      r.Solver = .SingleOutput →
      2 ≤ (r.L ++ r.R ++ r.O).countP (fun t => !(inst.getD t.wireID false)) →
      solveR1C w cs r inst wv = none) ∧
    (∀ (p : ℕ) (_ : Fact p.Prime) (w : ℕ) (cs : R1CS p) (i fuel : ℕ)
        (st : SolveState p) (r : R1C) (s : List (ZMod p) × List Bool),
      cs.Constraints.get? i = some r →
      solveR1C w cs r st.inst st.wv = some s →
      (instantiateR1C cs r s.1).1 * (instantiateR1C cs r s.1).2.1 ≠
        (instantiateR1C cs r s.1).2.2 →
      compLoop w cs i (fuel + 1) st = none) ∧
    (∀ (p : ℕ) (_ : Fact p.Prime) (w : ℕ) (cs : R1CS p)
        (assignment : List (String × ZMod p)) (a b c wv : List (ZMod p))
        (s : List (ZMod p) × List Bool),
      sizesOk cs a b c wv = true →
      inputPhase cs assignment wv = .ok s →
      compLoop w cs 0 cs.NbCOConstraints ⟨a, b, c, s.1, s.2⟩ = none →
      Solve w cs assignment a b c wv = .panicked) ∧
    (∀ (p : ℕ) (_ : Fact p.Prime) (entry : LogEntry) (wv : List (ZMod p))
        (inst : List Bool) (wid : ℕ),
      wid ∈ entry.ToResolve → inst.getD wid false = false →
      logValue entry wv inst = none) ∧
    (∀ (p : ℕ) (_ : Fact p.Prime) (w : ℕ) (cs : R1CS p)
        (assignment : List (String × ZMod p)) (a b c wv : List (ZMod p))
        (s : List (ZMod p) × List Bool) (st1 st2 : SolveState p),
      sizesOk cs a b c wv = true →
      inputPhase cs assignment wv = .ok s →
      compLoop w cs 0 cs.NbCOConstraints ⟨a, b, c, s.1, s.2⟩ = some st1 →
      assertLoop cs cs.NbCOConstraints cs.NbCOConstraints
        (cs.Constraints.length - cs.NbCOConstraints) st1 = .ok st2 →
      resolveLogs st2.wv st2.inst cs.Logs = none →
      Solve w cs assignment a b c wv = .panicked) := by
  refine ⟨?_, ?_, ?_, ?_, ?_⟩
  · intro p hp w cs r inst wv hs h2
    unfold solveR1C
    rw [hs]
    simp [scanAll_none_of_two cs inst wv r h2]
  · intro p hp w cs i fuel st r s hget hsol hbad
    unfold compLoop
    simp only [hget, hsol]
    rw [if_neg hbad]
  · intro p hp w cs assignment a b c wv s hsz hip hcomp
    unfold Solve
    rw [if_pos hsz, hip]
    simp only [hcomp]
  · intro p hp entry wv inst wid hmem hninst
    unfold logValue
    suffices hargs : resolveArgs wv inst entry.ToResolve = none by rw [hargs]; rfl
    revert hmem
    induction entry.ToResolve with
    | nil => intro hmem; cases hmem
    | cons x rest ih =>
      intro hmem
      unfold resolveArgs
      rcases List.mem_cons.mp hmem with hx | hx
      · subst hx
        rw [if_neg (by rw [hninst]; exact Bool.false_ne_true)]
      · by_cases hix : inst.getD x false = true
        · rw [if_pos hix, ih hx]
          rfl
        · rw [if_neg hix]
  · intro p hp w cs assignment a b c wv s st1 st2 hsz hip hcomp hassert hlogs
    unfold Solve
    rw [if_pos hsz, hip]
    simp only [hcomp, hassert, hlogs]

/-- A single-output constraint with two uninstantiated wires in `L`. -/
def rTwoUnknown : R1C := ⟨[⟨1, 0, 0⟩, ⟨1, 0, 1⟩], [], [], .SingleOutput⟩

/-- A one-wire system whose single computational constraint
`1*one * 1*one = 2*one` fails its post-solve check. -/
def csCompBad : R1CS 7 :=
  ⟨1, 1, 0, [], ["ONE_WIRE"], [], [], 1, 1,
    [⟨[⟨1, 0, 0⟩], [⟨1, 0, 0⟩], [⟨2, 0, 0⟩], .SingleOutput⟩], []⟩

/-- A two-wire system whose log entry references the never-instantiated
wire 0. -/
def csLogBad : R1CS 7 :=
  ⟨2, 1, 0, [], ["ONE_WIRE"], [⟨"w %s", [0]⟩], [], 0, 0, [], []⟩

/-- Witness for C8: each fatal path at a concrete input. -/
theorem fatal_invariants_panic_witness :
    solveR1C (p := 7) 4 csSingle7 rTwoUnknown [false, false] [0, 0] = none ∧
    compLoop 4 csCompBad 0 1 ⟨[0], [0], [0], [1], [true]⟩ = none ∧
    Solve 4 csCompBad [] [0] [0] [0] [0] = .panicked ∧
    logValue (⟨"%s", [0]⟩ : LogEntry) [(0 : ZMod 7)] [false] = none ∧
    Solve 4 csLogBad [] [] [] [] [0, 0] = .panicked :=
  ⟨fatal_invariants_panic.1 7 ⟨by norm_num⟩ 4 csSingle7 rTwoUnknown [false, false] [0, 0]
      rfl (by decide),
    fatal_invariants_panic.2.1 7 ⟨by norm_num⟩ 4 csCompBad 0 0 ⟨[0], [0], [0], [1], [true]⟩
      ⟨[⟨1, 0, 0⟩], [⟨1, 0, 0⟩], [⟨2, 0, 0⟩], .SingleOutput⟩ ([1], [true])
      rfl (by decide) (by decide),
    fatal_invariants_panic.2.2.1 7 ⟨by norm_num⟩ 4 csCompBad [] [0] [0] [0] [0]
      ([1], [true]) (by decide) (by rfl) (by decide),
    fatal_invariants_panic.2.2.2.1 7 ⟨by norm_num⟩ ⟨"%s", [0]⟩ [(0 : ZMod 7)] [false] 0
      (by decide) (by decide),
    fatal_invariants_panic.2.2.2.2 7 ⟨by norm_num⟩ 4 csLogBad [] [] [] [] [0, 0]
      ([0, 1], [false, true]) ⟨[], [], [], [0, 1], [false, true]⟩
      ⟨[], [], [], [0, 1], [false, true]⟩
      (by decide) (by rfl) (by decide) (by decide) (by decide)⟩

/-! ## Input instantiation and the reserved constant-one wire (C9, C7) -/

/-- The instantiation walk never touches entries below its start index. -/
theorem instantiateInputsAux_preserve (assignment : List (String × ZMod p)) :
    ∀ (names : List String) (idx : ℕ) (wv : List (ZMod p)) (inst : List Bool)
      (wv' : List (ZMod p)) (inst' : List Bool),
      instantiateInputsAux assignment idx names wv inst = .ok (wv', inst') →
      ∀ k, k < idx → wv'.get? k = wv.get? k ∧ inst'.get? k = inst.get? k := by
  intro names
  induction names with
  | nil =>
    intro idx wv inst wv' inst' h k hk
    injection h with h1
    cases h1
    exact ⟨rfl, rfl⟩
  | cons name rest ih =>
    intro idx wv inst wv' inst' h k hk
    unfold instantiateInputsAux at h
    by_cases hn : name = OneWire
    · rw [if_pos hn] at h
      have hres := ih (idx + 1) (wv.set idx 1) (inst.set idx true) wv' inst' h k (by omega)
      rw [hres.1, hres.2, get?_set_ne' _ _ _ _ (by omega), get?_set_ne' _ _ _ _ (by omega)]
      exact ⟨rfl, rfl⟩
    · rw [if_neg hn] at h
      cases hl : assignment.lookup name with
      | none => rw [hl] at h; exact Except.noConfusion h
      | some v =>
        rw [hl] at h
        have hres := ih (idx + 1) (wv.set idx v) (inst.set idx true) wv' inst' h k (by omega)
        rw [hres.1, hres.2, get?_set_ne' _ _ _ _ (by omega), get?_set_ne' _ _ _ _ (by omega)]
        exact ⟨rfl, rfl⟩

/-- The instantiation walk preserves the buffer lengths. -/
theorem instantiateInputsAux_len (assignment : List (String × ZMod p)) :
    ∀ (names : List String) (idx : ℕ) (wv : List (ZMod p)) (inst : List Bool)
      (wv' : List (ZMod p)) (inst' : List Bool),
      instantiateInputsAux assignment idx names wv inst = .ok (wv', inst') →
      wv'.length = wv.length ∧ inst'.length = inst.length := by
  intro names
  induction names with
  | nil =>
    intro idx wv inst wv' inst' h
    injection h with h1
    cases h1
    exact ⟨rfl, rfl⟩
  | cons name rest ih =>
    intro idx wv inst wv' inst' h
    unfold instantiateInputsAux at h
    by_cases hn : name = OneWire
    · rw [if_pos hn] at h
      have hres := ih (idx + 1) (wv.set idx 1) (inst.set idx true) wv' inst' h
      simpa using hres
    · rw [if_neg hn] at h
      cases hl : assignment.lookup name with
      | none => rw [hl] at h; exact Except.noConfusion h
      | some v =>
        rw [hl] at h
        have hres := ih (idx + 1) (wv.set idx v) (inst.set idx true) wv' inst' h
        simpa using hres

/-- C9: the reserved constant-one wire name.  First: a binding for that
name in the assignment map is never consulted (prepending one leaves the
whole instantiation walk unchanged, so a bound value is ignored).  Second:
on success every position holding the reserved name gets value 1 and is
marked instantiated.  Third: the reserved name never yields the
input-not-set error — the walk succeeds as soon as every other declared
name is present. -/
theorem oneWire_reserved_handling :
    (∀ (p : ℕ) (_ : Fact p.Prime) (assignment : List (String × ZMod p)) (v : ZMod p)
        (idx : ℕ) (names : List String) (wv : List (ZMod p)) (inst : List Bool),
      instantiateInputsAux ((OneWire, v) :: assignment) idx names wv inst =
        instantiateInputsAux assignment idx names wv inst) ∧
    (∀ (p : ℕ) (_ : Fact p.Prime) (assignment : List (String × ZMod p)) (idx : ℕ)
        (names : List String) (wv : List (ZMod p)) (inst : List Bool)
        (wv' : List (ZMod p)) (inst' : List Bool) (i : ℕ),
      instantiateInputsAux assignment idx names wv inst = .ok (wv', inst') →
      names.get? i = some OneWire →
      idx + names.length ≤ wv.length → idx + names.length ≤ inst.length →
      wv'.get? (idx + i) = some 1 ∧ inst'.get? (idx + i) = some true) ∧
    (∀ (p : ℕ) (_ : Fact p.Prime) (assignment : List (String × ZMod p)) (idx : ℕ)
        (names : List String) (wv : List (ZMod p)) (inst : List Bool),
      (∀ n ∈ names, n = OneWire ∨ (assignment.lookup n).isSome = true) →
      ∃ out, instantiateInputsAux assignment idx names wv inst = .ok out) := by
  refine ⟨?_, ?_, ?_⟩
  · intro p hp assignment v idx names
    induction names generalizing idx with
    | nil => intro wv inst; rfl
    | cons name rest ih =>
      intro wv inst
      by_cases hn : name = OneWire
      · unfold instantiateInputsAux
        rw [if_pos hn, if_pos hn]
        exact ih (idx + 1) _ _
      · have hbeq : (name == OneWire) = false := beq_eq_false_iff_ne.mpr hn
        have hlk : List.lookup name ((OneWire, v) :: assignment) =
            List.lookup name assignment := by
          simp only [List.lookup, hbeq]
        unfold instantiateInputsAux
        rw [if_neg hn, if_neg hn, hlk]
        cases hl : assignment.lookup name with
        | none => rfl
        | some x => exact ih (idx + 1) _ _
  · intro p hp assignment idx names
    induction names generalizing idx with
    | nil =>
      intro wv inst wv' inst' i h hget hw hi
      simp at hget
    | cons name rest ih =>
      intro wv inst wv' inst' i h hget hw hi
      unfold instantiateInputsAux at h
      cases i with
      | zero =>
        have hname : name = OneWire := by simpa using hget
        rw [if_pos hname] at h
        have hpres := instantiateInputsAux_preserve assignment rest (idx + 1)
          (wv.set idx 1) (inst.set idx true) wv' inst' h idx (by omega)
        simp only [List.length_cons] at hw hi
        rw [Nat.add_zero, hpres.1, hpres.2,
          get?_set_self' _ _ _ (by omega), get?_set_self' _ _ _ (by omega)]
        exact ⟨rfl, rfl⟩
      | succ j =>
        have hget' : rest.get? j = some OneWire := by simpa using hget
        have hidx : idx + (j + 1) = (idx + 1) + j := by omega
        simp only [List.length_cons] at hw hi
        by_cases hn : name = OneWire
        · rw [if_pos hn] at h
          rw [hidx]
          exact ih (idx + 1) (wv.set idx 1) (inst.set idx true) wv' inst' j h hget'
            (by simpa using (by omega : idx + 1 + rest.length ≤ wv.length))
            (by simpa using (by omega : idx + 1 + rest.length ≤ inst.length))
        · rw [if_neg hn] at h
          cases hl : assignment.lookup name with
          | none => rw [hl] at h; exact Except.noConfusion h
          | some x =>
            rw [hl] at h
            rw [hidx]
            exact ih (idx + 1) (wv.set idx x) (inst.set idx true) wv' inst' j h hget'
              (by simpa using (by omega : idx + 1 + rest.length ≤ wv.length))
              (by simpa using (by omega : idx + 1 + rest.length ≤ inst.length))
  · intro p hp assignment idx names
    induction names generalizing idx with
    | nil => intro wv inst hall; exact ⟨(wv, inst), rfl⟩
    | cons name rest ih =>
      intro wv inst hall
      by_cases hn : name = OneWire
      · unfold instantiateInputsAux
        rw [if_pos hn]
        exact ih (idx + 1) _ _ fun n hmem => hall n (List.mem_cons_of_mem name hmem)
      · rcases hall name (List.mem_cons_self name rest) with hx | hx
        · exact absurd hx hn
        · obtain ⟨v, hv⟩ := Option.isSome_iff_exists.mp hx
          unfold instantiateInputsAux
          rw [if_neg hn, hv]
          exact ih (idx + 1) _ _ fun n hmem => hall n (List.mem_cons_of_mem name hmem)

/-- The concrete assignment of the C9 witness. -/
def asgX : List (String × ZMod 7) := [("x", 3)]

/-- Witness for C9 at a two-name list holding the reserved name first. -/
theorem oneWire_reserved_handling_witness :
    (instantiateInputsAux ((OneWire, (5 : ZMod 7)) :: asgX) 0 ["ONE_WIRE", "x"]
        [0, 0] [false, false] =
      instantiateInputsAux asgX 0 ["ONE_WIRE", "x"] [0, 0] [false, false]) ∧
    (([1, 3] : List (ZMod 7)).get? (0 + 0) = some 1 ∧
      [true, true].get? (0 + 0) = some true) ∧
    (∃ out, instantiateInputsAux asgX 0 ["ONE_WIRE", "x"] [0, 0] [false, false] = .ok out) :=
  ⟨oneWire_reserved_handling.1 7 ⟨by norm_num⟩ asgX 5 0 ["ONE_WIRE", "x"] [0, 0] [false, false],
    oneWire_reserved_handling.2.1 7 ⟨by norm_num⟩ asgX 0 ["ONE_WIRE", "x"]
      [0, 0] [false, false] [1, 3] [true, true] 0 (by rfl) (by rfl) (by decide) (by decide),
    oneWire_reserved_handling.2.2 7 ⟨by norm_num⟩ asgX 0 ["ONE_WIRE", "x"]
      [0, 0] [false, false] (by decide)⟩

/-- The declared input names in the order the input phase checks them:
the secret names (skipped entirely when the secret count is zero) followed
by the public names. -/
def declaredInputOrder (cs : R1CS p) : List String :=
  (if cs.NbSecretWires = 0 then [] else cs.SecretWires) ++ cs.PublicWires

/-- The first declared name that is neither the reserved constant-one name
nor present in the assignment map. -/
def firstUnset (assignment : List (String × ZMod p)) (names : List String) : Option String :=
  names.find? fun n => !(n == OneWire) && (assignment.lookup n).isNone

/-- The instantiation walk aborts with exactly the first unset name,
returning the buffers written so far. -/
theorem instantiateInputsAux_err_firstUnset (assignment : List (String × ZMod p)) :
    ∀ (names : List String) (idx : ℕ) (wv : List (ZMod p)) (inst : List Bool)
      (name : String), firstUnset assignment names = some name →
      ∃ wvp instp,
        instantiateInputsAux assignment idx names wv inst = .error (name, wvp, instp) := by
  intro names
  induction names with
  | nil => intro idx wv inst name h; simp [firstUnset] at h
  | cons n rest ih =>
    intro idx wv inst name h
    unfold instantiateInputsAux
    by_cases hn : n = OneWire
    · rw [if_pos hn]
      refine ih (idx + 1) _ _ name ?_
      rw [firstUnset, List.find?_cons_of_neg] at h
      · exact h
      · simp [hn]
    · rw [if_neg hn]
      cases hl : assignment.lookup n with
      | none =>
        have hname : n = name := by
          rw [firstUnset, List.find?_cons_of_pos] at h
          · exact Option.some_injective _ h
          · simp [beq_eq_false_iff_ne.mpr hn, hl]
        subst hname
        exact ⟨wv, inst, rfl⟩
      | some v =>
        obtain ⟨wvp, instp, he⟩ := ih (idx + 1) (wv.set idx v) (inst.set idx true) name (by
          rw [firstUnset, List.find?_cons_of_neg] at h
          · exact h
          · simp [hl])
        exact ⟨wvp, instp, he⟩

/-- With no unset name, the instantiation walk succeeds. -/
theorem instantiateInputsAux_ok_of_none (assignment : List (String × ZMod p)) :
    ∀ (names : List String) (idx : ℕ) (wv : List (ZMod p)) (inst : List Bool),
      firstUnset assignment names = none →
      ∃ out, instantiateInputsAux assignment idx names wv inst = .ok out := by
  intro names
  induction names with
  | nil => intro idx wv inst _; exact ⟨(wv, inst), rfl⟩
  | cons n rest ih =>
    intro idx wv inst h
    unfold instantiateInputsAux
    by_cases hn : n = OneWire
    · rw [if_pos hn]
      refine ih (idx + 1) _ _ ?_
      rw [firstUnset, List.find?_cons_of_neg] at h
      · exact h
      · simp [hn]
    · rw [if_neg hn]
      cases hl : assignment.lookup n with
      | none =>
        rw [firstUnset, List.find?_cons_of_pos] at h
        · exact Option.noConfusion h
        · simp [beq_eq_false_iff_ne.mpr hn, hl]
      | some v =>
        obtain ⟨out, hok⟩ := ih (idx + 1) (wv.set idx v) (inst.set idx true) (by
          rw [firstUnset, List.find?_cons_of_neg] at h
          · exact h
          · simp [hl])
        exact ⟨out, hok⟩

/-- The input phase fails with the first unset declared name, scanning
secret names (when any) before public names. -/
theorem inputPhase_err_firstUnset (cs : R1CS p) (assignment : List (String × ZMod p))
    (wv : List (ZMod p)) (name : String)
    (hmiss : firstUnset assignment (declaredInputOrder cs) = some name) :
    ∃ e2, inputPhase cs assignment wv = .error (name, e2) := by
  rw [declaredInputOrder, firstUnset, List.find?_append] at hmiss
  unfold inputPhase
  by_cases hsec : cs.NbSecretWires = 0
  · rw [if_pos hsec] at hmiss
    simp only [List.find?_nil, Option.none_or] at hmiss
    rw [if_neg (by omega)]
    obtain ⟨wvp, instp, herr⟩ := instantiateInputsAux_err_firstUnset assignment
      cs.PublicWires (cs.NbWires - cs.NbPublicWires) wv
      (List.replicate cs.NbWires false) name hmiss
    exact ⟨(wvp, instp), herr⟩
  · rw [if_neg hsec] at hmiss
    rw [if_pos (by omega : cs.NbSecretWires ≠ 0)]
    cases hfs : cs.SecretWires.find?
        (fun n => !(n == OneWire) && (assignment.lookup n).isNone) with
    | some name' =>
      rw [hfs] at hmiss
      rw [show (some name').or
        (cs.PublicWires.find? fun n => !(n == OneWire) && (assignment.lookup n).isNone) =
          some name' from rfl] at hmiss
      cases hmiss
      obtain ⟨wvp, instp, herr⟩ := instantiateInputsAux_err_firstUnset assignment
        cs.SecretWires (cs.NbWires - cs.NbPublicWires - cs.NbSecretWires) wv
        (List.replicate cs.NbWires false) name hfs
      rw [herr]
      exact ⟨(wvp, instp), rfl⟩
    | none =>
      rw [hfs] at hmiss
      simp only [Option.none_or] at hmiss
      obtain ⟨out, hok⟩ := instantiateInputsAux_ok_of_none assignment cs.SecretWires
        (cs.NbWires - cs.NbPublicWires - cs.NbSecretWires) wv
        (List.replicate cs.NbWires false) hfs
      rw [hok]
      obtain ⟨wvp, instp, herr⟩ := instantiateInputsAux_err_firstUnset assignment
        cs.PublicWires (cs.NbWires - cs.NbPublicWires) out.1 out.2 name hmiss
      exact ⟨(wvp, instp), herr⟩

/-- C7: with correctly sized buffers and a declared input name absent from
the assignment map, `Solve` returns the input-not-set error naming the
first missing name — secret names checked in order before public names —
with the `a`, `b`, `c` buffers returned untouched, before any constraint
is processed. -/
theorem solve_inputNotSet (p : ℕ) [Fact p.Prime] (w : ℕ) (cs : R1CS p)
    (assignment : List (String × ZMod p)) (a b c wv : List (ZMod p)) (name : String)
    (hsz : sizesOk cs a b c wv = true)
    (hmiss : firstUnset assignment (declaredInputOrder cs) = some name) :
    ∃ wv', Solve w cs assignment a b c wv = .err (.inputNotSet name) a b c wv' := by
  obtain ⟨e2, hip⟩ := inputPhase_err_firstUnset cs assignment wv name hmiss
  refine ⟨e2.1, ?_⟩
  unfold Solve
  rw [if_pos hsz, hip]

/-- Two wires, one secret input "s", the public reserved wire. -/
def csMissing : R1CS 7 := ⟨2, 1, 1, ["s"], ["ONE_WIRE"], [], [], 0, 0, [], []⟩

/-- Witness for C7: the empty assignment misses "s". -/
theorem solve_inputNotSet_witness :
    ∃ wv', Solve 4 csMissing [] [] [] [] [0, 0] = .err (.inputNotSet "s") [] [] [] wv' :=
  solve_inputNotSet 7 4 csMissing [] [] [] [] [0, 0] "s" (by decide) (by decide)

/-! ## Loop lemmas for the computational and assertion phases (C1, C6) -/

theorem compLoop_zero (w : ℕ) (cs : R1CS p) (i : ℕ) (st : SolveState p) :
    compLoop w cs i 0 st = some st := rfl

/-- One step of the computational loop, with the constraint fetch and the
solving outcome given. -/
theorem compLoop_succ (w : ℕ) (cs : R1CS p) (i fuel : ℕ) (st : SolveState p) (r : R1C)
    (s : List (ZMod p) × List Bool)
    (hget : cs.Constraints.get? i = some r)
    (hsol : solveR1C w cs r st.inst st.wv = some s) :
    compLoop w cs i (fuel + 1) st =
      (if (instantiateR1C cs r s.1).1 * (instantiateR1C cs r s.1).2.1 =
          (instantiateR1C cs r s.1).2.2 then
        compLoop w cs (i + 1) fuel
          ⟨st.a.set i (instantiateR1C cs r s.1).1, st.b.set i (instantiateR1C cs r s.1).2.1,
            st.c.set i (instantiateR1C cs r s.1).2.2, s.1, s.2⟩
      else none) := by
  conv_lhs => rw [compLoop]
  simp only [hget, hsol]

/-- One step of the assertion loop, with the constraint fetch given. -/
theorem assertLoop_succ (cs : R1CS p) (nbCO i fuel : ℕ) (st : SolveState p) (r : R1C)
    (hget : cs.Constraints.get? i = some r) :
    assertLoop cs nbCO i (fuel + 1) st =
      (if (instantiateR1C cs r st.wv).1 * (instantiateR1C cs r st.wv).2.1 =
          (instantiateR1C cs r st.wv).2.2 then
        assertLoop cs nbCO (i + 1) fuel
          ⟨st.a.set i (instantiateR1C cs r st.wv).1,
            st.b.set i (instantiateR1C cs r st.wv).2.1,
            st.c.set i (instantiateR1C cs r st.wv).2.2, st.wv, st.inst⟩
      else
        match cs.DebugInfo.get? (i - nbCO) with
        | none => .panicked
        | some entry =>
          match logValue entry st.wv st.inst with
          | none => .panicked
          | some msg =>
            .fail msg
              ⟨st.a.set i (instantiateR1C cs r st.wv).1,
                st.b.set i (instantiateR1C cs r st.wv).2.1,
                st.c.set i (instantiateR1C cs r st.wv).2.2, st.wv, st.inst⟩) := by
  conv_lhs => rw [assertLoop]
  simp only [hget]

/-- The computational loop preserves the output-buffer lengths. -/
theorem compLoop_len (w : ℕ) (cs : R1CS p) :
    ∀ (fuel i : ℕ) (st st' : SolveState p), compLoop w cs i fuel st = some st' →
      st'.a.length = st.a.length ∧ st'.b.length = st.b.length ∧
        st'.c.length = st.c.length := by
  intro fuel
  induction fuel with
  | zero =>
    intro i st st' h
    rw [compLoop_zero] at h
    cases h
    exact ⟨rfl, rfl, rfl⟩
  | succ fuel ih =>
    intro i st st' h
    cases hget : cs.Constraints.get? i with
    | none => unfold compLoop at h; simp only [hget] at h; exact Option.noConfusion h
    | some r =>
      cases hsol : solveR1C w cs r st.inst st.wv with
      | none => unfold compLoop at h; simp only [hget, hsol] at h; exact Option.noConfusion h
      | some s =>
        rw [compLoop_succ w cs i fuel st r s hget hsol] at h
        by_cases hchk : (instantiateR1C cs r s.1).1 * (instantiateR1C cs r s.1).2.1 =
            (instantiateR1C cs r s.1).2.2
        · rw [if_pos hchk] at h
          have hres := ih (i + 1) _ st' h
          simpa using hres
        · rw [if_neg hchk] at h
          exact Option.noConfusion h

/-- The computational loop leaves entries below its start index alone. -/
theorem compLoop_preserve (w : ℕ) (cs : R1CS p) :
    ∀ (fuel i : ℕ) (st st' : SolveState p), compLoop w cs i fuel st = some st' →
      ∀ k, k < i → st'.a.get? k = st.a.get? k ∧ st'.b.get? k = st.b.get? k ∧
        st'.c.get? k = st.c.get? k := by
  intro fuel
  induction fuel with
  | zero =>
    intro i st st' h k hk
    rw [compLoop_zero] at h
    cases h
    exact ⟨rfl, rfl, rfl⟩
  | succ fuel ih =>
    intro i st st' h k hk
    cases hget : cs.Constraints.get? i with
    | none => unfold compLoop at h; simp only [hget] at h; exact Option.noConfusion h
    | some r =>
      cases hsol : solveR1C w cs r st.inst st.wv with
      | none => unfold compLoop at h; simp only [hget, hsol] at h; exact Option.noConfusion h
      | some s =>
        rw [compLoop_succ w cs i fuel st r s hget hsol] at h
        by_cases hchk : (instantiateR1C cs r s.1).1 * (instantiateR1C cs r s.1).2.1 =
            (instantiateR1C cs r s.1).2.2
        · rw [if_pos hchk] at h
          have hres := ih (i + 1) _ st' h k (by omega)
          refine ⟨?_, ?_, ?_⟩
          · rw [hres.1]; exact get?_set_ne' _ _ _ _ (by omega)
          · rw [hres.2.1]; exact get?_set_ne' _ _ _ _ (by omega)
          · rw [hres.2.2]; exact get?_set_ne' _ _ _ _ (by omega)
        · rw [if_neg hchk] at h
          exact Option.noConfusion h

/-- Every index the computational loop processes ends with its `a*b = c`
check satisfied in the final buffers. -/
theorem compLoop_sat (w : ℕ) (cs : R1CS p) :
    ∀ (fuel i : ℕ) (st st' : SolveState p),
      st.a.length = st.b.length → st.a.length = st.c.length →
      compLoop w cs i fuel st = some st' →
      ∀ j, i ≤ j → j < i + fuel →
        st'.a.getD j 0 * st'.b.getD j 0 = st'.c.getD j 0 := by
  intro fuel
  induction fuel with
  | zero => intro i st st' _ _ _ j hj hj'; omega
  | succ fuel ih =>
    intro i st st' hlab hlac h j hj hj'
    cases hget : cs.Constraints.get? i with
    | none => unfold compLoop at h; simp only [hget] at h; exact Option.noConfusion h
    | some r =>
      cases hsol : solveR1C w cs r st.inst st.wv with
      | none => unfold compLoop at h; simp only [hget, hsol] at h; exact Option.noConfusion h
      | some s =>
        rw [compLoop_succ w cs i fuel st r s hget hsol] at h
        by_cases hchk : (instantiateR1C cs r s.1).1 * (instantiateR1C cs r s.1).2.1 =
            (instantiateR1C cs r s.1).2.2
        · rw [if_pos hchk] at h
          by_cases hji : j = i
          · subst hji
            have hpres := compLoop_preserve w cs fuel (j + 1) _ st' h j (by omega)
            rw [List.getD_eq_getD_get?, List.getD_eq_getD_get?, List.getD_eq_getD_get?,
              hpres.1, hpres.2.1, hpres.2.2]
            by_cases hjl : j < st.a.length
            · rw [get?_set_self' _ _ _ hjl, get?_set_self' _ _ _ (by omega),
                get?_set_self' _ _ _ (by omega)]
              simpa using hchk
            · have h1 : (st.a.set j (instantiateR1C cs r s.1).1).get? j = none := by
                rw [List.get?_eq_getElem?, List.getElem?_eq_none]
                simpa using (by omega : st.a.length ≤ j)
              have h2 : (st.b.set j (instantiateR1C cs r s.1).2.1).get? j = none := by
                rw [List.get?_eq_getElem?, List.getElem?_eq_none]
                simpa using (by omega : st.b.length ≤ j)
              have h3 : (st.c.set j (instantiateR1C cs r s.1).2.2).get? j = none := by
                rw [List.get?_eq_getElem?, List.getElem?_eq_none]
                simpa using (by omega : st.c.length ≤ j)
              rw [h1, h2, h3]
              simp
          · refine ih (i + 1) _ st' (by simpa using hlab) (by simpa using hlac) h j
              (by omega) (by omega)
        · rw [if_neg hchk] at h
          exact Option.noConfusion h

theorem assertLoop_zero (cs : R1CS p) (nbCO i : ℕ) (st : SolveState p) :
    assertLoop cs nbCO i 0 st = .ok st := rfl

/-- The assertion loop never modifies the value vector or the bitmap. -/
theorem assertLoop_ok_wv (cs : R1CS p) (nbCO : ℕ) :
    ∀ (fuel i : ℕ) (st st' : SolveState p), assertLoop cs nbCO i fuel st = .ok st' →
      st'.wv = st.wv ∧ st'.inst = st.inst ∧ st'.a.length = st.a.length ∧
        st'.b.length = st.b.length ∧ st'.c.length = st.c.length := by
  intro fuel
  induction fuel with
  | zero =>
    intro i st st' h
    rw [assertLoop_zero] at h
    cases h
    exact ⟨rfl, rfl, rfl, rfl, rfl⟩
  | succ fuel ih =>
    intro i st st' h
    cases hget : cs.Constraints.get? i with
    | none => unfold assertLoop at h; simp only [hget] at h; exact AssertOut.noConfusion h
    | some r =>
      rw [assertLoop_succ cs nbCO i fuel st r hget] at h
      by_cases hchk : (instantiateR1C cs r st.wv).1 * (instantiateR1C cs r st.wv).2.1 =
          (instantiateR1C cs r st.wv).2.2
      · rw [if_pos hchk] at h
        have hres := ih (i + 1) _ st' h
        simpa using hres
      · rw [if_neg hchk] at h
        cases hdbg : cs.DebugInfo.get? (i - nbCO) with
        | none => simp only [hdbg] at h; exact AssertOut.noConfusion h
        | some entry =>
          simp only [hdbg] at h
          cases hlv : logValue entry st.wv st.inst with
          | none => simp only [hlv] at h; exact AssertOut.noConfusion h
          | some msg => simp only [hlv] at h; exact AssertOut.noConfusion h

/-- The assertion loop leaves entries below its start index alone. -/
theorem assertLoop_preserve (cs : R1CS p) (nbCO : ℕ) :
    ∀ (fuel i : ℕ) (st st' : SolveState p), assertLoop cs nbCO i fuel st = .ok st' →
      ∀ k, k < i → st'.a.get? k = st.a.get? k ∧ st'.b.get? k = st.b.get? k ∧
        st'.c.get? k = st.c.get? k := by
  intro fuel
  induction fuel with
  | zero =>
    intro i st st' h k hk
    rw [assertLoop_zero] at h
    cases h
    exact ⟨rfl, rfl, rfl⟩
  | succ fuel ih =>
    intro i st st' h k hk
    cases hget : cs.Constraints.get? i with
    | none => unfold assertLoop at h; simp only [hget] at h; exact AssertOut.noConfusion h
    | some r =>
      rw [assertLoop_succ cs nbCO i fuel st r hget] at h
      by_cases hchk : (instantiateR1C cs r st.wv).1 * (instantiateR1C cs r st.wv).2.1 =
          (instantiateR1C cs r st.wv).2.2
      · rw [if_pos hchk] at h
        have hres := ih (i + 1) _ st' h k (by omega)
        refine ⟨?_, ?_, ?_⟩
        · rw [hres.1]; exact get?_set_ne' _ _ _ _ (by omega)
        · rw [hres.2.1]; exact get?_set_ne' _ _ _ _ (by omega)
        · rw [hres.2.2]; exact get?_set_ne' _ _ _ _ (by omega)
      · rw [if_neg hchk] at h
        cases hdbg : cs.DebugInfo.get? (i - nbCO) with
        | none => simp only [hdbg] at h; exact AssertOut.noConfusion h
        | some entry =>
          simp only [hdbg] at h
          cases hlv : logValue entry st.wv st.inst with
          | none => simp only [hlv] at h; exact AssertOut.noConfusion h
          | some msg => simp only [hlv] at h; exact AssertOut.noConfusion h

/-- Every index the assertion loop passes ends with its `a*b = c` check
satisfied in the final buffers. -/
theorem assertLoop_sat (cs : R1CS p) (nbCO : ℕ) :
    ∀ (fuel i : ℕ) (st st' : SolveState p),
      st.a.length = st.b.length → st.a.length = st.c.length →
      assertLoop cs nbCO i fuel st = .ok st' →
      ∀ j, i ≤ j → j < i + fuel →
        st'.a.getD j 0 * st'.b.getD j 0 = st'.c.getD j 0 := by
  intro fuel
  induction fuel with
  | zero => intro i st st' _ _ _ j hj hj'; omega
  | succ fuel ih =>
    intro i st st' hlab hlac h j hj hj'
    cases hget : cs.Constraints.get? i with
    | none => unfold assertLoop at h; simp only [hget] at h; exact AssertOut.noConfusion h
    | some r =>
      rw [assertLoop_succ cs nbCO i fuel st r hget] at h
      by_cases hchk : (instantiateR1C cs r st.wv).1 * (instantiateR1C cs r st.wv).2.1 =
          (instantiateR1C cs r st.wv).2.2
      · rw [if_pos hchk] at h
        by_cases hji : j = i
        · subst hji
          have hpres := assertLoop_preserve cs nbCO fuel (j + 1) _ st' h j (by omega)
          rw [List.getD_eq_getD_get?, List.getD_eq_getD_get?, List.getD_eq_getD_get?,
            hpres.1, hpres.2.1, hpres.2.2]
          by_cases hjl : j < st.a.length
          · rw [get?_set_self' _ _ _ hjl, get?_set_self' _ _ _ (by omega),
              get?_set_self' _ _ _ (by omega)]
            simpa using hchk
          · have h1 : (st.a.set j (instantiateR1C cs r st.wv).1).get? j = none := by
              rw [List.get?_eq_getElem?, List.getElem?_eq_none]
              simpa using (by omega : st.a.length ≤ j)
            have h2 : (st.b.set j (instantiateR1C cs r st.wv).2.1).get? j = none := by
              rw [List.get?_eq_getElem?, List.getElem?_eq_none]
              simpa using (by omega : st.b.length ≤ j)
            have h3 : (st.c.set j (instantiateR1C cs r st.wv).2.2).get? j = none := by
              rw [List.get?_eq_getElem?, List.getElem?_eq_none]
              simpa using (by omega : st.c.length ≤ j)
            rw [h1, h2, h3]
            simp
        · refine ih (i + 1) _ st' (by simpa using hlab) (by simpa using hlac) h j
            (by omega) (by omega)
      · rw [if_neg hchk] at h
        cases hdbg : cs.DebugInfo.get? (i - nbCO) with
        | none => simp only [hdbg] at h; exact AssertOut.noConfusion h
        | some entry =>
          simp only [hdbg] at h
          cases hlv : logValue entry st.wv st.inst with
          | none => simp only [hlv] at h; exact AssertOut.noConfusion h
          | some msg => simp only [hlv] at h; exact AssertOut.noConfusion h

/-- A failing assertion loop run pins down a violated constraint at or
past its start index, together with the debug entry resolved into the
returned message; the value vector and bitmap are those it was entered
with. -/
theorem assertLoop_fail_char (cs : R1CS p) (nbCO : ℕ) :
    ∀ (fuel i : ℕ) (st : SolveState p) (msg : String) (st' : SolveState p),
      assertLoop cs nbCO i fuel st = .fail msg st' →
      st'.wv = st.wv ∧ st'.inst = st.inst ∧
      ∃ j r entry, i ≤ j ∧ cs.Constraints.get? j = some r ∧
        (instantiateR1C cs r st.wv).1 * (instantiateR1C cs r st.wv).2.1 ≠
          (instantiateR1C cs r st.wv).2.2 ∧
        cs.DebugInfo.get? (j - nbCO) = some entry ∧
        logValue entry st.wv st.inst = some msg := by
  intro fuel
  induction fuel with
  | zero => intro i st msg st' h; exact AssertOut.noConfusion h
  | succ fuel ih =>
    intro i st msg st' h
    cases hget : cs.Constraints.get? i with
    | none => unfold assertLoop at h; simp only [hget] at h; exact AssertOut.noConfusion h
    | some r =>
      rw [assertLoop_succ cs nbCO i fuel st r hget] at h
      by_cases hchk : (instantiateR1C cs r st.wv).1 * (instantiateR1C cs r st.wv).2.1 =
          (instantiateR1C cs r st.wv).2.2
      · rw [if_pos hchk] at h
        obtain ⟨hwv, hinst, j, r', entry, hij, hg, hc, hd, hl⟩ := ih (i + 1) _ msg st' h
        exact ⟨hwv, hinst, j, r', entry, by omega, hg, hc, hd, hl⟩
      · rw [if_neg hchk] at h
        cases hdbg : cs.DebugInfo.get? (i - nbCO) with
        | none => simp only [hdbg] at h; exact AssertOut.noConfusion h
        | some entry =>
          simp only [hdbg] at h
          cases hlv : logValue entry st.wv st.inst with
          | none => simp only [hlv] at h; exact AssertOut.noConfusion h
          | some m =>
            simp only [hlv] at h
            injection h with h1 h2
            subst h1
            subst h2
            exact ⟨rfl, rfl, i, r, entry, le_refl i, hget, hchk, hdbg, hlv⟩

/-- C1: whenever `Solve` returns success, every constraint of the system —
computational prefix and assertion suffix alike — has its recorded
`a[i] * b[i] = c[i]` identity holding in the returned vectors, the values
of `eval(L)`, `eval(R)`, `eval(O)` recorded for it by the solve run. -/
theorem solve_ok_all_constraints (p : ℕ) [Fact p.Prime] (w : ℕ) (cs : R1CS p)
    (assignment : List (String × ZMod p)) (a b c wv a' b' c' wv' : List (ZMod p))
    (h : Solve w cs assignment a b c wv = .ok a' b' c' wv') :
    ∀ j, j < cs.Constraints.length → a'.getD j 0 * b'.getD j 0 = c'.getD j 0 := by
  unfold Solve at h
  by_cases hsz : sizesOk cs a b c wv = true
  · rw [if_pos hsz] at h
    cases hip : inputPhase cs assignment wv with
    | error e => rw [hip] at h; exact SolveResult.noConfusion h
    | ok s =>
      simp only [hip] at h
      cases hcomp : compLoop w cs 0 cs.NbCOConstraints ⟨a, b, c, s.1, s.2⟩ with
      | none => simp only [hcomp] at h; exact SolveResult.noConfusion h
      | some st1 =>
        simp only [hcomp] at h
        cases hassert : assertLoop cs cs.NbCOConstraints cs.NbCOConstraints
            (cs.Constraints.length - cs.NbCOConstraints) st1 with
        | panicked => simp only [hassert] at h; exact SolveResult.noConfusion h
        | fail msg st2 =>
          simp only [hassert] at h
          cases hlog : resolveLogs st2.wv st2.inst cs.Logs with
          | none => simp only [hlog] at h; exact SolveResult.noConfusion h
          | some ls => simp only [hlog] at h; exact SolveResult.noConfusion h
        | ok st2 =>
          simp only [hassert] at h
          cases hlog : resolveLogs st2.wv st2.inst cs.Logs with
          | none => simp only [hlog] at h; exact SolveResult.noConfusion h
          | some ls =>
            simp only [hlog] at h
            injection h with h1 h2 h3 h4
            subst h1
            subst h2
            subst h3
            subst h4
            intro j hj
            have hszs : ((a.length = cs.NbConstraints ∧ b.length = cs.NbConstraints) ∧
                c.length = cs.NbConstraints) ∧ wv.length = cs.NbWires := by
              simpa [sizesOk] using hsz
            obtain ⟨⟨⟨hA, hB⟩, hC⟩, hW⟩ := hszs
            have hlen1 := compLoop_len w cs cs.NbCOConstraints 0 _ st1 hcomp
            by_cases hjc : j < cs.NbCOConstraints
            · have hsat := compLoop_sat w cs cs.NbCOConstraints 0 ⟨a, b, c, s.1, s.2⟩ st1
                (by simp [hA, hB]) (by simp [hA, hC]) hcomp j
                (by omega) (by omega)
              have hpres := assertLoop_preserve cs cs.NbCOConstraints
                (cs.Constraints.length - cs.NbCOConstraints) cs.NbCOConstraints st1 st2
                hassert j hjc
              rw [List.getD_eq_getD_get?, List.getD_eq_getD_get?, List.getD_eq_getD_get?,
                hpres.1, hpres.2.1, hpres.2.2, ← List.getD_eq_getD_get?,
                ← List.getD_eq_getD_get?, ← List.getD_eq_getD_get?]
              exact hsat
            · refine assertLoop_sat cs cs.NbCOConstraints
                (cs.Constraints.length - cs.NbCOConstraints) cs.NbCOConstraints st1 st2
                ?_ ?_ hassert j (by omega) (by omega)
              · have := hlen1.1
                have := hlen1.2.1
                simp only [this, hlen1.1]
                omega
              · have := hlen1.1
                have := hlen1.2.2
                simp only [this, hlen1.1]
                omega
  · rw [if_neg hsz] at h
    exact SolveResult.noConfusion h

/-- A one-wire system with a single always-satisfied assertion
`1*one * 1*one = 1*one`. -/
def csAssertOk : R1CS 7 :=
  ⟨1, 1, 0, [], ["ONE_WIRE"], [], [⟨"fail %s", [0]⟩], 1, 0,
    [⟨[⟨1, 0, 0⟩], [⟨1, 0, 0⟩], [⟨1, 0, 0⟩], .SingleOutput⟩], []⟩

/-- Witness for C1 at the one-assertion system, which solves to
`a = b = c = [1]`. -/
theorem solve_ok_all_constraints_witness :
    ([1] : List (ZMod 7)).getD 0 0 * ([1] : List (ZMod 7)).getD 0 0 =
      ([1] : List (ZMod 7)).getD 0 0 :=
  solve_ok_all_constraints 7 4 csAssertOk [] [0] [0] [0] [0] [1] [1] [1] [1]
    (by decide) 0 (by decide)

/-- C6: once the buffer-size check and the input phase have succeeded, the
only error `Solve` can return is `UnsatisfiedConstraint`, and its message
is the debug-info entry of index `j - NbCOConstraints` for a violated
assertion-suffix constraint `j`, resolved against the value vector and
bitmap left by the computational phase (also the returned vector). -/
theorem solve_err_unsatisfied (p : ℕ) [Fact p.Prime] (w : ℕ) (cs : R1CS p)
    (assignment : List (String × ZMod p)) (a b c wv : List (ZMod p)) (e : SolveError)
    (a' b' c' wv' : List (ZMod p)) (s : List (ZMod p) × List Bool)
    (hsz : sizesOk cs a b c wv = true)
    (hip : inputPhase cs assignment wv = .ok s)
    (h : Solve w cs assignment a b c wv = .err e a' b' c' wv') :
    ∃ msg st1 j r entry,
      e = .unsatisfiedConstraint msg ∧
      compLoop w cs 0 cs.NbCOConstraints ⟨a, b, c, s.1, s.2⟩ = some st1 ∧
      cs.NbCOConstraints ≤ j ∧ j < cs.Constraints.length ∧
      cs.Constraints.get? j = some r ∧
      (instantiateR1C cs r st1.wv).1 * (instantiateR1C cs r st1.wv).2.1 ≠
        (instantiateR1C cs r st1.wv).2.2 ∧
      cs.DebugInfo.get? (j - cs.NbCOConstraints) = some entry ∧
      logValue entry st1.wv st1.inst = some msg ∧
      wv' = st1.wv := by
  unfold Solve at h
  rw [if_pos hsz] at h
  simp only [hip] at h
  cases hcomp : compLoop w cs 0 cs.NbCOConstraints ⟨a, b, c, s.1, s.2⟩ with
  | none => simp only [hcomp] at h; exact SolveResult.noConfusion h
  | some st1 =>
    simp only [hcomp] at h
    cases hassert : assertLoop cs cs.NbCOConstraints cs.NbCOConstraints
        (cs.Constraints.length - cs.NbCOConstraints) st1 with
    | panicked => simp only [hassert] at h; exact SolveResult.noConfusion h
    | ok st2 =>
      simp only [hassert] at h
      cases hlog : resolveLogs st2.wv st2.inst cs.Logs with
      | none => simp only [hlog] at h; exact SolveResult.noConfusion h
      | some ls => simp only [hlog] at h; exact SolveResult.noConfusion h
    | fail msg st2 =>
      simp only [hassert] at h
      cases hlog : resolveLogs st2.wv st2.inst cs.Logs with
      | none => simp only [hlog] at h; exact SolveResult.noConfusion h
      | some ls =>
        simp only [hlog] at h
        injection h with h1 h2 h3 h4 h5
        subst h1
        subst h2
        subst h3
        subst h4
        subst h5
        obtain ⟨hwv, hinst, j, r, entry, hij, hget, hchk, hdbg, hlv⟩ :=
          assertLoop_fail_char cs cs.NbCOConstraints
            (cs.Constraints.length - cs.NbCOConstraints) cs.NbCOConstraints st1 msg st2
            hassert
        exact ⟨msg, st1, j, r, entry, rfl, rfl, hij,
          (List.get?_eq_some.mp hget).1, hget, hchk, hdbg, hlv, hwv⟩

/-- A one-wire system whose single assertion `1*one * 1*one = 2*one`
fails, with a matching debug entry. -/
def csAssertBad : R1CS 7 :=
  ⟨1, 1, 0, [], ["ONE_WIRE"], [], [⟨"fail %s", [0]⟩], 1, 0,
    [⟨[⟨1, 0, 0⟩], [⟨1, 0, 0⟩], [⟨2, 0, 0⟩], .SingleOutput⟩], []⟩

/-- Witness for C6: the failing assertion yields the unsatisfied error
carrying the resolved debug string "fail 1". -/
theorem solve_err_unsatisfied_witness :
    ∃ msg st1 j r entry,
      SolveError.unsatisfiedConstraint "fail 1" = .unsatisfiedConstraint msg ∧
      compLoop 4 csAssertBad 0 csAssertBad.NbCOConstraints
        ⟨[0], [0], [0], (([1], [true]) : List (ZMod 7) × List Bool).1,
          (([1], [true]) : List (ZMod 7) × List Bool).2⟩ = some st1 ∧
      csAssertBad.NbCOConstraints ≤ j ∧ j < csAssertBad.Constraints.length ∧
      csAssertBad.Constraints.get? j = some r ∧
      (instantiateR1C csAssertBad r st1.wv).1 * (instantiateR1C csAssertBad r st1.wv).2.1 ≠
        (instantiateR1C csAssertBad r st1.wv).2.2 ∧
      csAssertBad.DebugInfo.get? (j - csAssertBad.NbCOConstraints) = some entry ∧
      logValue entry st1.wv st1.inst = some msg ∧
      ([1] : List (ZMod 7)) = st1.wv :=
  solve_err_unsatisfied 7 4 csAssertBad [] [0] [0] [0] [0]
    (.unsatisfiedConstraint "fail 1") [1] [1] [2] [1] ([1], [true])
    (by decide) (by rfl) (by decide)

end Gnark
